import Mathlib

/-!
Verification development for CaramelDB.

The repository ships three Python frontends (`src/pybind/carameldb`,
`src/python_bindings/carameldb`, `src/python_bindings/caramel`) over a C++
backend that implements the CSF core (hashing, bucketing, Huffman coding,
GF(2) solving, AMQ prefilters, serialization).  The Python frontends are
embedded here directly from their source.  The C++ core is not part of the
source tree given here, so it is modelled from the specification
(spec.md sections 4.2 to 4.9); every such definition carries a doc comment
starting with `Modelled from the spec:`.
-/

namespace Caramel

/-! ## Python-level value and error model -/

/-- Python exceptions surfaced by the frontend code paths we model.  Messages
are abstracted away; only the exception class matters for the claims. -/
inductive PyErr where
  | valueError
  | typeError
  | nameError
  | assertionError
  | indexError
  | attributeError
  deriving DecidableEq, Repr

deriving instance DecidableEq for Except

/-- An element of a numpy values array, as seen by `_infer_backend`:
an integer scalar (tagged with whether its dtype is `numpy.uint64`),
a `str`/`bytes` scalar carrying its Python `len`, or anything else. -/
inductive NpElem where
  | intE (isU64 : Bool)
  | strE (len : Nat)
  | otherE
  deriving DecidableEq, Repr

/-- The dtype-level kind of an element: what `np.issubdtype(type(e), ...)`
and `isinstance(e, (str, bytes))` can observe, minus the per-element length. -/
inductive NpKind where
  | uint64
  | otherInt
  | strB
  | other
  deriving DecidableEq, Repr

/-- Kind of an element (determined by the array dtype for non-object arrays). -/
def NpElem.kind : NpElem → NpKind
  | .intE true => .uint64
  | .intE false => .otherInt
  | .strE _ => .strB
  | .otherE => .other

/-- A numpy values array: 1-D, 2-D (list of rows), or higher-dimensional. -/
inductive NpValues where
  | d1 (elems : List NpElem)
  | d2 (rows : List (List NpElem))
  | dHigher
  deriving DecidableEq, Repr

/-- The ten CSF backend classes, in the order of `CLASS_LIST` in
`src/pybind/carameldb/__init__.py`. -/
inductive ClassTag where
  | csfChar10
  | csfChar12
  | csfString
  | csfUint32
  | csfUint64
  | msChar10
  | msChar12
  | msString
  | msUint32
  | msUint64
  deriving DecidableEq, Repr

/-- `CLASS_LIST` from `src/pybind/carameldb/__init__.py` (same list and order
in `src/python_bindings/carameldb/__init__.py`). -/
def CLASS_LIST : List ClassTag :=
  [.csfChar10, .csfChar12, .csfString, .csfUint32, .csfUint64,
   .msChar10, .msChar12, .msString, .msUint32, .msUint64]

/-- Python slicing `l[:m]` with `m = None` meaning the whole list. -/
def takeOpt (m : Option Nat) (l : List α) : List α :=
  match m with
  | none => l
  | some n => l.take n

/-- Effectful map over a list in the `Except` monad, short-circuiting on the
first error (the behaviour of a Python loop that may raise). -/
def exMap (f : α → Except ε β) : List α → Except ε (List β)
  | [] => .ok []
  | a :: as => do
    let b ← f a
    let bs ← exMap f as
    pure (b :: bs)

/-- Python `len` applied to an array element: succeeds on `str`/`bytes`
(returning the stored length), raises `TypeError` otherwise. -/
def pyLen : NpElem → Except PyErr Nat
  | .strE n => .ok n
  | _ => .error .typeError

/-- Numpy indexing `row[0]`: the first entry of a row, `IndexError` on an
empty row. -/
def headElem : List NpElem → Except PyErr NpElem
  | [] => .error .indexError
  | e :: _ => .ok e

/-- The subset of elements examined by `_infer_length`
(`values_to_infer[:max_to_infer]` for 1-D, `values_to_infer[:max_to_infer, 0]`
for 2-D, from `src/pybind/carameldb/__init__.py` lines 177-190). -/
def inferSubset (v : NpValues) (m : Option Nat) : Except PyErr (List NpElem) :=
  match v with
  | .d1 elems => .ok (takeOpt m elems)
  | .d2 rows => exMap headElem (takeOpt m rows)
  | .dHigher => .error .valueError

/-- `_infer_length` from `src/pybind/carameldb/__init__.py` lines 177-190:
map Python `len` over the examined subset (`np.vectorize(len)` raises on an
empty subset), return `some` of the common length when all lengths agree with
the first, else `none`. -/
def inferLength (v : NpValues) (m : Option Nat) : Except PyErr (Option Nat) := do
  let subset ← inferSubset v m
  let lengths ← exMap pyLen subset
  match lengths with
  | [] => .error .valueError
  | l0 :: rest => if rest.all (· = l0) then pure (some l0) else pure none

/-- Dispatch on the type of `value_to_test` shared by the 1-D and 2-D branches
of `_infer_backend` (`src/pybind/carameldb/__init__.py` lines 161-174). -/
def classifyElem (e : NpElem) (multiset : Bool) (v : NpValues) (m : Option Nat) :
    Except PyErr ClassTag :=
  match e with
  | .intE true => .ok (if multiset then .msUint64 else .csfUint64)
  | .intE false => .ok (if multiset then .msUint32 else .csfUint32)
  | .strE _ => do
      let ol ← inferLength v m
      if ol = some 10 then pure (if multiset then .msChar10 else .csfChar10)
      else if ol = some 12 then pure (if multiset then .msChar12 else .csfChar12)
      else pure (if multiset then .msString else .csfString)
  | .otherE => .error .valueError

/-- `_infer_backend` from `src/pybind/carameldb/__init__.py` lines 147-174:
pick `value_to_test` (`values[0]` or `values[0][0]`), reject empty subarrays
and arrays of dimension other than 1 or 2, then dispatch on its type. -/
def inferBackend (v : NpValues) (m : Option Nat) : Except PyErr ClassTag :=
  match v with
  | .d1 [] => .error .indexError
  | .d1 (e :: _) => classifyElem e false v m
  | .d2 [] => .error .indexError
  | .d2 ([] :: _) => .error .valueError
  | .d2 ((e :: _) :: _) => classifyElem e true v m
  | .dHigher => .error .valueError

/-! ## The `caramel` frontend inference (src/python_bindings/caramel) -/

/-- A raw Python value as seen by the `caramel` frontend `_infer_backend`
(which receives the values as a plain Python list, not a numpy array). -/
inductive PyElem where
  | intV
  | listV
  | strV (len : Nat)
  | otherV
  deriving DecidableEq, Repr

/-- Python `len` on a raw value of the `caramel` frontend. -/
def pyLenRaw : PyElem → Except PyErr Nat
  | .strV n => .ok n
  | .listV => .ok 0
  | _ => .error .typeError

/-- `_infer_length` from `src/python_bindings/caramel/__init__.py` lines
101-107: compare every length in the full list against `len(values[0])`. -/
def caramelInferLength (values : List PyElem) : Except PyErr (Option Nat) :=
  match values with
  | [] => .error .indexError
  | v0 :: _ => do
      let target ← pyLenRaw v0
      let lengths ← exMap pyLenRaw values
      if lengths.all (· = target) then pure (some target) else pure none

/-- The class tags the `caramel` frontend can return (it has a single
Python-level `MultisetCSF` class instead of the per-type multiset classes). -/
inductive CaramelTag where
  | csfUint32
  | csfChar10
  | csfChar12
  | csfString
  | multisetCSF
  deriving DecidableEq, Repr

/-- `_infer_backend` from `src/python_bindings/caramel/__init__.py` lines
78-98.  Note: the function computes `validate_values = values[:max_to_infer]`
but then calls `_infer_length(values)` on the *whole* list, so `max_to_infer`
has no effect on the result. -/
def caramelInferBackend (values : List PyElem) (_m : Option Nat) :
    Except PyErr CaramelTag :=
  match values with
  | [] => .error .indexError
  | v0 :: _ =>
    match v0 with
    | .intV => .ok .csfUint32
    | .listV => .ok .multisetCSF
    | .strV _ => do
        let ol ← caramelInferLength values
        if ol = some 10 then pure .csfChar10
        else if ol = some 12 then pure .csfChar12
        else pure .csfString
    | .otherV => .error .valueError

/-! ## Backends, the query wrapper, and `_wrap_backend` -/

/-- Is the class one of the multiset classes (`is_multiset` on the C++ side)? -/
def ClassTag.isMultiset : ClassTag → Bool
  | .msChar10 | .msChar12 | .msString | .msUint32 | .msUint64 => true
  | _ => false

/-- A backend CSF object as the wrapper sees it: its class plus its query
behaviour.  For the `CSFChar10`/`CSFChar12` classes the C++ `query` returns a
list of one-character strings; we model a Python string as a list of character
code points. -/
structure Backend where
  cls : ClassTag
  queryFn : Nat → List (List Nat)

/-- A trivial backend of a given class (stands for the object the C++
constructor returns; its behaviour is irrelevant to the frontend claims). -/
def mkBackend (c : ClassTag) : Backend := ⟨c, fun _ => []⟩

/-- `CSFQueryWrapper` from `src/pybind/carameldb/__init__.py` lines 125-144:
holds `_csf` and `_postprocess_fn` and applies the latter to query results. -/
structure QueryWrapper where
  csf : Backend
  ppFn : List (List Nat) → List Nat

/-- `CSFQueryWrapper.query`: `self._postprocess_fn(self._csf.query(q))`. -/
def QueryWrapper.query (w : QueryWrapper) (q : Nat) : List Nat :=
  w.ppFn (w.csf.queryFn q)

/-- Attribute names one can access on a `CSFQueryWrapper` instance. -/
inductive AttrName where
  | query
  | save
  | getFilter
  | csfField        -- the instance attribute `_csf`
  | ppFnField       -- the instance attribute `_postprocess_fn`
  | dunderDir       -- `__dir__`, overridden by the wrapper class
  | dunderRepr      -- `__repr__`, overridden by the wrapper class
  | otherAttr
  deriving DecidableEq, Repr

/-- The attributes found by normal lookup on a `CSFQueryWrapper` instance:
its instance `__dict__` holds `_csf` and `_postprocess_fn`, and its class
defines `query`, `__dir__` and `__repr__`.  Only for the remaining names does
Python fall through to `CSFQueryWrapper.__getattr__`. -/
def wrapperOwnAttrs : List AttrName :=
  [.query, .csfField, .ppFnField, .dunderDir, .dunderRepr]

/-- Where an attribute access on a wrapper instance resolves. -/
inductive Resolution where
  | fromWrapper
  | delegated
  deriving DecidableEq, Repr

/-- Python attribute lookup on a `CSFQueryWrapper` instance: `__getattr__`
(which forwards to `self._csf`) is invoked only when normal lookup fails. -/
def resolveAttr (a : AttrName) : Resolution :=
  if a ∈ wrapperOwnAttrs then .fromWrapper else .delegated

/-- Result of `_wrap_backend`: either a `CSFQueryWrapper` or the bare backend. -/
inductive WrapResult where
  | wrapped (w : QueryWrapper)
  | plain (b : Backend)

/-- `_wrap_backend` from `src/pybind/carameldb/__init__.py` lines 193-200:
wrap `CSFChar10`/`CSFChar12` backends with a join postprocess, return every
other backend unchanged.  `"".join` on a list of strings is modelled as
`List.flatten` on lists of code points. -/
def wrapBackend (b : Backend) : WrapResult :=
  if b.cls = .csfChar10 ∨ b.cls = .csfChar12 then
    .wrapped ⟨b, List.flatten⟩
  else
    .plain b

/-! ## `load` dispatch over `CLASS_LIST` -/

/-- The `for csf_class in CLASS_LIST` loop of `load`
(`src/pybind/carameldb/__init__.py` lines 103-122): `outcome c` is what
`c.load(filename)` does on the fixed file — either a backend object or a
raised `CsfDeserializationException` (modelled as `Except.error ()`). -/
def tryLoadClasses (outcome : ClassTag → Except Unit Backend) :
    List ClassTag → Except PyErr WrapResult
  | [] => .error .valueError
  | c :: cs =>
    match outcome c with
    | .ok b => .ok (wrapBackend b)
    | .error _ => tryLoadClasses outcome cs

/-- `load(filename)` from `src/pybind/carameldb/__init__.py` lines 103-122. -/
def loadModel (outcome : ClassTag → Except Unit Backend) : Except PyErr WrapResult :=
  tryLoadClasses outcome CLASS_LIST

/-! ## The `Caramel` constructor argument checks -/

/-- A Python key object: `str`, `bytes`, or anything else. -/
inductive PyKey where
  | strK
  | bytesK
  | otherK
  deriving DecidableEq, Repr

/-- `isinstance(k, (str, bytes))`. -/
def isStrOrBytes : PyKey → Bool
  | .strK => true
  | .bytesK => true
  | .otherK => false

/-- The raw `values` argument of `Caramel` before numpy conversion: its Python
`len`, and the result of `np.array(values)` (`none` when conversion raises). -/
structure RawValues where
  len : Nat
  conv : Option NpValues

/-- `Caramel` from `src/pybind/carameldb/__init__.py` lines 37-100: the four
input checks, numpy conversion, backend inference, the multiset
permute/transpose branch, backend construction, and `_wrap_backend`.
The C++ constructor itself is out of scope here and modelled as succeeding. -/
def pyCaramel (keys : List PyKey) (values : RawValues) (permute : Bool)
    (m : Option Nat) : Except PyErr WrapResult :=
  if keys.length = 0 then .error .valueError
  else if values.len = 0 then .error .valueError
  else if keys.length ≠ values.len then .error .valueError
  else if ¬ isStrOrBytes (keys.headD .otherK) then .error .valueError
  else
    match values.conv with
    | none => .error .valueError
    | some arr => do
        let cls ← inferBackend arr m
        if cls.isMultiset then
          if permute ∧ cls = .msString then .error .valueError
          else pure (wrapBackend (mkBackend cls))
        else pure (wrapBackend (mkBackend cls))

/-! ## MultisetCSF directory save/load -/

/-- A Python string as its list of character code points (so that Python
lexicographic string comparison is code-point list comparison). -/
abbrev CodeStr := List Nat

/-- Decimal digits of `n`, least significant first, by fuelled division. -/
def digitsRevFuel : Nat → Nat → List Nat
  | 0, _ => []
  | fuel + 1, n => if n < 10 then [n] else n % 10 :: digitsRevFuel fuel (n / 10)

/-- The decimal rendering of `n` as character codes (what `str(n)` yields). -/
def natCodes (n : Nat) : CodeStr :=
  ((digitsRevFuel (n + 1) n).reverse).map (· + 48)

/-- The filename `f"column_{i}.csf"` as character codes. -/
def colName (i : Nat) : CodeStr :=
  [99, 111, 108, 117, 109, 110, 95] ++ natCodes i ++ [46, 99, 115, 102]

/-- Python `s.split(sep)[-1]` for a one-character separator: the segment after
the last occurrence of `sep` (the whole string when `sep` does not occur). -/
def afterLastSep (sep : Nat) (s : CodeStr) : CodeStr :=
  (s.reverse.takeWhile (· ≠ sep)).reverse

/-- Python `s.split(sep)[0]` for a one-character separator. -/
def beforeFirstSep (sep : Nat) (s : CodeStr) : CodeStr :=
  s.takeWhile (· ≠ sep)

/-- Value of a little-endian decimal digit list. -/
def parseRevDigits : List Nat → Nat
  | [] => 0
  | d :: ds => d + 10 * parseRevDigits ds

/-- Python `int(s)` on a digit string rendered by `str`. -/
def parseCodes (s : CodeStr) : Nat :=
  parseRevDigits ((s.map (· - 48)).reverse)

/-- The sort key `int(x.split("/")[-1].split("_")[-1].split(".")[0])` used by
`MultisetCSF.load` in `src/python_bindings/carameldb/__init__.py` line 236. -/
def colKey (s : CodeStr) : Nat :=
  parseCodes (beforeFirstSep 46 (afterLastSep 95 (afterLastSep 47 s)))

/-- Python string `<` (lexicographic on code points). -/
def lexLt : CodeStr → CodeStr → Bool
  | [], [] => false
  | [], _ :: _ => true
  | _ :: _, [] => false
  | a :: as, b :: bs => if a < b then true else if b < a then false else lexLt as bs

/-- Total-preorder form of `lexLt` used for sorting. -/
def lexLe (a b : CodeStr) : Bool := ! lexLt b a

/-- Insert into a sorted list (Python `sorted` is modelled by insertion sort;
all sort keys in the claims are distinct, so stability is immaterial). -/
def insertLe (le : α → α → Bool) (x : α) : List α → List α
  | [] => [x]
  | y :: ys => if le x y then x :: y :: ys else y :: insertLe le x ys

/-- Insertion sort with a boolean `≤`. -/
def insSort (le : α → α → Bool) : List α → List α
  | [] => []
  | x :: xs => insertLe le x (insSort le xs)

/-- Does the filename end in `".csf"` (the `glob` pattern `*.csf`)? -/
def hasCsfSuffix (s : CodeStr) : Bool :=
  s.reverse.take 4 = [102, 115, 99, 46]

/-- `MultisetCSF.save` (`src/python_bindings/carameldb/__init__.py` lines
222-227, identical in `caramel`): write `column_i.csf` for each column, in
index order.  A directory is modelled as its entries `(filename, contents)`
in creation order; the per-column single-file serialization is the C++
backend's and is modelled as storing the column object itself. -/
def msSaveDir (csfs : List α) : List (CodeStr × α) :=
  csfs.enum.map (fun p => (colName p.1, p.2))

/-- The name checks of the `MultisetCSF.load` loop: the `i`-th sorted file
must be named `column_{i}.csf` (the `assert` at line 241). -/
def checkCols : Nat → List (CodeStr × α) → Bool
  | _, [] => true
  | i, (nm, _) :: rest =>
    if afterLastSep 47 nm = colName i then checkCols (i + 1) rest else false

/-- The shared shape of `MultisetCSF.load`: glob `*.csf`, sort by `sortLe`,
check `column_{i}.csf` names in order (the loop `assert`), and collect the
column objects.  A failed `assert` raises `AssertionError`. -/
def msLoadWith (sortLe : CodeStr → CodeStr → Bool) (dir : List (CodeStr × α)) :
    Except PyErr (List α) :=
  let files := insSort (fun p q => sortLe p.1 q.1)
    (dir.filter (fun p => hasCsfSuffix p.1))
  if checkCols 0 files then .ok (files.map (·.2)) else .error .assertionError

/-- Numeric sort key order of `src/python_bindings/carameldb/__init__.py`
lines 234-237. -/
def numericLe (a b : CodeStr) : Bool := colKey a ≤ colKey b

/-- `MultisetCSF.load` of `src/python_bindings/carameldb/__init__.py`
lines 229-244 (sorts by the numeric column index). -/
def msLoadNumeric (dir : List (CodeStr × α)) : Except PyErr (List α) :=
  msLoadWith numericLe dir

/-- `MultisetCSF.load` of `src/python_bindings/caramel/__init__.py`
lines 148-160 (plain `sorted`, i.e. lexicographic on filenames). -/
def msLoadLex (dir : List (CodeStr × α)) : Except PyErr (List α) :=
  msLoadWith lexLe dir

/-! ## Python call binding for `MultisetCSF.__init__` -/

/-- The parameters of `Caramel` in `src/python_bindings/carameldb/__init__.py`
lines 36-43, in positional order. -/
inductive CaramelParam where
  | keys
  | values
  | useBloomFilter
  | permute
  | maxToInfer
  | verbose
  deriving DecidableEq, Repr

/-- Positional order of `Caramel`'s parameters. -/
def caramelParams : List CaramelParam :=
  [.keys, .values, .useBloomFilter, .permute, .maxToInfer, .verbose]

/-- Python argument binding for a call `Caramel(p1, .., pn, kw=.., ..)`:
raises `TypeError` on too many positional arguments, on a keyword for a
parameter already bound positionally (`got multiple values for argument`),
on a repeated keyword, or on a missing required parameter. -/
def bindCaramelCall (npos : Nat) (kws : List CaramelParam) : Except PyErr Unit :=
  if caramelParams.length < npos then .error .typeError
  else if kws.any (fun kw => caramelParams.indexOf kw < npos) then .error .typeError
  else if ¬ kws.Nodup then .error .typeError
  else if ¬ (1 ≤ npos ∨ .keys ∈ kws) then .error .typeError
  else if ¬ (2 ≤ npos ∨ .values ∈ kws) then .error .typeError
  else .ok ()

/-- The per-column loop of `MultisetCSF.__init__`
(`src/python_bindings/carameldb/__init__.py` lines 208-217): each iteration
calls `Caramel(keys, values[i], max_to_infer, use_bloom_filter=..,
verbose=..)` — three positional arguments plus those two keywords. -/
def columnLoop : Nat → Except PyErr Unit
  | 0 => .ok ()
  | n + 1 => do
    let _ ← bindCaramelCall 3 [.useBloomFilter, .verbose]
    columnLoop n

/-- `MultisetCSF.__init__` from `src/python_bindings/carameldb/__init__.py`
lines 184-217: numpy conversion (failure raises `ValueError`), then — when
`multiset_permute_optimization` is set — a call to `permute_values`, a name
that is not defined anywhere in that module, hence `NameError`; then the
transpose and the per-column `Caramel` loop over `numCols` columns. -/
def multisetInit (convOk : Bool) (numCols : Nat) (permuteOpt : Bool) :
    Except PyErr Unit :=
  if ¬ convOk then .error .valueError
  else if permuteOpt then .error .nameError
  else columnLoop numCols

/-! ## Spec-modelled core: bitstrings -/

/-- Modelled from the spec: a packed bitstring (spec 4.1 BitArray) is modelled
as a list of booleans; word-level packing is a performance detail with no
observable effect on reads. -/
abbrev Bits := List Bool

/-- Bitwise XOR of two bitstrings (spec 4.1 `xor_range` / solver parity). -/
def bxor (a b : Bits) : Bits := List.zipWith xor a b

/-- Modelled from the spec: `read_bits(i, w)` returns bits `[i, i+w)`
(spec 4.1); the 64-bit word packaging is immaterial in the list model. -/
def readBits (s : Bits) (i w : Nat) : Bits := (s.drop i).take w

/-- An all-zero bitstring. -/
def zeroBits (w : Nat) : Bits := List.replicate w false

/-! ## Spec-modelled core: Huffman code trees (spec 4.4 Codec) -/

/-- Modelled from the spec: the per-bucket codebook (spec 4.4) is a binary
code tree over the bucket's value symbols.  The canonical reassignment of
codewords and the 32-bit length limit affect only codebook serialization
size and word packing, not which symbol a codeword decodes to, and are
omitted. -/
inductive HTree where
  | leaf (sym : Nat)
  | node (l r : HTree)
  deriving DecidableEq, Repr

/-- The symbols at the leaves of a code tree. -/
def HTree.syms : HTree → List Nat
  | .leaf s => [s]
  | .node l r => l.syms ++ r.syms

/-- Height of a code tree = its maximum code length `L_b`. -/
def HTree.height : HTree → Nat
  | .leaf _ => 0
  | .node l r => 1 + max l.height r.height

/-- The codeword of a symbol: its root-to-leaf path (`false` = left). -/
def codeOf : HTree → Nat → Option Bits
  | .leaf s, v => if s = v then some [] else none
  | .node l r, v =>
    match codeOf l v with
    | some c => some (false :: c)
    | none => (codeOf r v).map (fun c => true :: c)

/-- Prefix decoding (spec 4.6 query step): walk the tree consuming bits. -/
def decodeWalk : HTree → Bits → Option (Nat × Bits)
  | .leaf s, bs => some (s, bs)
  | .node _ _, [] => none
  | .node l r, b :: bs => decodeWalk (if b then r else l) bs

/-- One step of frequency counting: bump the count of `v`, or append it. -/
def freqStep (acc : List (Nat × Nat)) (v : Nat) : List (Nat × Nat) :=
  if acc.any (fun p => p.1 = v) then
    acc.map (fun p => if p.1 = v then (p.1, p.2 + 1) else p)
  else acc ++ [(v, 1)]

/-- Count occurrences of each distinct value, in order of first occurrence
(the empirical value distribution of a bucket, spec 4.4). -/
def freqTable (vals : List Nat) : List (Nat × Nat) :=
  vals.foldl freqStep []

/-- One Huffman merge step on weight-sorted trees: combine the two lightest. -/
def huffStep (l : List (HTree × Nat)) : List (HTree × Nat) :=
  match insSort (fun a b => a.2 ≤ b.2) l with
  | (t1, w1) :: (t2, w2) :: rest => (HTree.node t1 t2, w1 + w2) :: rest
  | other => other

/-- Fuelled Huffman merging loop. -/
def huffLoop : Nat → List (HTree × Nat) → Option HTree
  | _, [(t, _)] => some t
  | 0, _ => none
  | _ + 1, [] => none
  | fuel + 1, l => huffLoop fuel (huffStep l)

/-- Modelled from the spec: build the per-bucket Huffman code tree from the
bucket's empirical value distribution (spec 4.4). -/
def huffBuild (vals : List Nat) : Option HTree :=
  let freqs := freqTable vals
  huffLoop freqs.length (freqs.map (fun p => (HTree.leaf p.1, p.2)))

/-! ## Spec-modelled core: sparse GF(2) systems and the peeling solver -/

/-- Modelled from the spec: one equation of a bucket's system (spec 4.5):
a set of column-group indices (three for the CSF's 3-regular hypergraph,
four for the binary-fuse filter) and an `L`-bit right-hand side. -/
structure Row where
  vars : List Nat
  rhs : Bits
  deriving DecidableEq, Repr

/-- The XOR of the slices of `x` selected by `vars` (each slice `L` bits). -/
def xorRow (L : Nat) (x : List Bits) (vars : List Nat) : Bits :=
  vars.foldl (fun acc v => bxor acc (x.getD v (zeroBits L))) (zeroBits L)

/-- Does assignment `x` satisfy row `r`? -/
def rowHolds (L : Nat) (x : List Bits) (r : Row) : Prop :=
  xorRow L x r.vars = r.rhs

/-- A variable of `r` of degree 1 in `rows` (spec 4.6 phase 1): it occurs
once in `r.vars` and in no other row of `rows` (which contains `r`). -/
def degOneVar (rows : List Row) (r : Row) : Option Nat :=
  r.vars.find? (fun v =>
    r.vars.count v = 1 && rows.countP (fun r2 => v ∈ r2.vars) = 1)

/-- Find some remaining row having a degree-1 variable. -/
def findPeelable (rows : List Row) : List Row → Option (Row × Nat)
  | [] => none
  | r :: rest =>
    match degOneVar rows r with
    | some v => some (r, v)
    | none => findPeelable rows rest

/-- Modelled from the spec: hypergraph peeling (spec 4.6 phase 1): repeatedly
remove a row with a degree-1 variable, recording the pop order.  A non-empty
2-core makes peeling fail; the lazy/dense Gaussian phases (spec 4.6 phases
2-3) are modelled by this failure path, which only narrows the set of seeds
the solver accepts and never affects soundness of produced solutions. -/
def peelList : Nat → List Row → Option (List (Row × Nat))
  | _, [] => some []
  | 0, _ => none
  | fuel + 1, rows =>
    match findPeelable rows rows with
    | none => none
    | some (r, v) => (peelList fuel (rows.erase r)).map (fun st => (r, v) :: st)

/-- Back-substitution (spec 4.6): replay the peel stack in reverse pop order,
assigning each peeled variable so its row's equation holds. -/
def backSub (L : Nat) (stack : List (Row × Nat)) (x : List Bits) : List Bits :=
  stack.foldr (fun rv x =>
    x.set rv.2 (bxor (xorRow L x (rv.1.vars.erase rv.2)) rv.1.rhs)) x

/-- Modelled from the spec: solve a bucket's system over `m` column groups of
`L` bits each (spec 4.6): peel, then back-substitute over the zero vector. -/
def solveSystem (L m : Nat) (rows : List Row) : Option (List Bits) :=
  (peelList rows.length rows).map (fun st =>
    backSub L st (List.replicate m (zeroBits L)))

/-! ## Spec-modelled core: hashing and bucketing (spec 4.2, 4.3) -/

/-- A key is an opaque byte sequence (spec 3). -/
abbrev Key := List Nat

/-- Modelled from the spec: the 128-bit keyed hash oracle (spec 4.2) is a
pluggable parameter: any function from seed and key to a hash value. -/
abbrev HashFn := Nat → Key → Nat

/-- 2 to the 128th, the hash range. -/
def p128 : Nat := 2 ^ 128

/-- The hash of a key under a seed, reduced to 128 bits. -/
def keyHash (hash : HashFn) (seed : Nat) (k : Key) : Nat := hash seed k % p128

/-- The four 32-bit lanes of a 128-bit hash (spec 4.2). -/
def lane0 (h : Nat) : Nat := h % 2 ^ 32

/-- Second 32-bit lane. -/
def lane1 (h : Nat) : Nat := h / 2 ^ 32 % 2 ^ 32

/-- Third 32-bit lane. -/
def lane2 (h : Nat) : Nat := h / 2 ^ 64 % 2 ^ 32

/-- Fourth (top) 32-bit lane. -/
def lane3 (h : Nat) : Nat := h / 2 ^ 96 % 2 ^ 32

/-- Modelled from the spec: `bucket_id` is the top `b` bits of the 128-bit
hash (spec 4.3). -/
def bucketOf (bits h : Nat) : Nat := h / 2 ^ (128 - bits)

/-- Modelled from the spec: the number of column groups per range.  The
unknown vector has about `1.10 · n` column groups (spec 3, 4.5) partitioned
into three equal ranges (spec 4.2); `max 1` keeps the ranges non-empty on
tiny buckets. -/
def segOf (n : Nat) : Nat := max 1 ((11 * n + 29) / 30)

/-- Modelled from the spec: the three edge endpoints of a key, one from each
of the three disjoint ranges of size `seg` (spec 4.2). -/
def edgeVars (seg h : Nat) : List Nat :=
  [lane0 h % seg, seg + lane1 h % seg, 2 * seg + lane2 h % seg]

/-- Is there a duplicate in the list (a 128-bit hash collision, spec 4.3)? -/
def hasDup : List Nat → Bool
  | [] => false
  | x :: xs => x ∈ xs || hasDup xs

/-- Construction errors (spec 6 error surface; the input errors are raised by
the Python frontend, modelled separately by `pyCaramel`). -/
inductive BuildError where
  | keyCollision
  | solverExhausted
  deriving DecidableEq, Repr

/-- Build options: master hasher seed, bucket-count exponent, and the
per-bucket seeds the solver may retry (spec 4.6 seed retry, default bound
at least 16). -/
structure BuildConfig where
  masterSeed : Nat
  bucketBits : Nat
  attemptSeeds : List Nat
  deriving DecidableEq, Repr

/-- The bucket a key falls in (spec 4.3). -/
def keyBucket (hash : HashFn) (cfg : BuildConfig) (k : Key) : Nat :=
  bucketOf cfg.bucketBits (keyHash hash cfg.masterSeed k)

/-- Modelled from the spec: the bucketed hash store (spec 4.3) checks for
128-bit hash collisions and aborts with `KeyCollision` before any bucket is
solved. -/
def buildStore (hash : HashFn) (cfg : BuildConfig) (keys : List Key) :
    Except BuildError (List Nat) :=
  let hs := keys.map (keyHash hash cfg.masterSeed)
  if hasDup hs then .error .keyCollision else .ok hs

/-! ## Spec-modelled core: per-bucket construction (spec 4.4-4.6) -/

/-- Zero-pad a codeword on the right to the row width `L` (spec 4.5). -/
def padTo (L : Nat) (c : Bits) : Bits := c ++ List.replicate (L - c.length) false

/-- The solved state of one bucket. -/
structure BucketSolved where
  seed : Nat
  seg : Nat
  L : Nat
  tree : Option HTree
  sol : List Bits
  deriving DecidableEq, Repr

/-- The equation of one key/value pair (spec 4.5):
`x[h0] XOR x[h1] XOR x[h2] = code(value)` padded to `L` bits. -/
def rowFor (hash : HashFn) (seed seg L : Nat) (tree : HTree) (p : Key × Nat) :
    Row :=
  { vars := edgeVars seg (keyHash hash seed p.1),
    rhs := padTo L ((codeOf tree p.2).getD []) }

/-- One solve attempt of a bucket under a given per-bucket seed. -/
def attemptBucket (hash : HashFn) (pairs : List (Key × Nat)) (tree : HTree)
    (L seg seed : Nat) : Option BucketSolved :=
  (solveSystem L (3 * seg) (pairs.map (rowFor hash seed seg L tree))).map
    (fun sol => ⟨seed, seg, L, some tree, sol⟩)

/-- Seed retry (spec 4.6): try each seed in order; on exhaustion return
`SolverExhausted`. -/
def trySeeds (f : Nat → Option β) : List Nat → Except BuildError β
  | [] => .error .solverExhausted
  | s :: rest =>
    match f s with
    | some b => .ok b
    | none => trySeeds f rest

/-- Modelled from the spec: build one bucket (spec 4.4-4.6): derive the
codebook from the bucket's values, set up the 3-regular system, solve with
seed retries.  An empty bucket has no codebook and an all-zero solution. -/
def buildBucket (hash : HashFn) (seeds : List Nat) (pairs : List (Key × Nat)) :
    Except BuildError BucketSolved :=
  match huffBuild (pairs.map (·.2)) with
  | none => .ok ⟨0, 1, 0, none, List.replicate 3 []⟩
  | some tree =>
    trySeeds (attemptBucket hash pairs tree tree.height (segOf pairs.length))
      seeds

/-! ## Spec-modelled core: global assembly and query (spec 4.6, 2) -/

/-- Per-bucket metadata kept by the CSF: per-bucket seed, range size, code
length, offset of the bucket's solution in the global bitstring `S`, and the
codebook (spec 3 BucketIndex). -/
structure BucketMeta where
  seed : Nat
  seg : Nat
  L : Nat
  offset : Nat
  tree : Option HTree
  deriving DecidableEq, Repr

/-- Metadata list with offsets from a prefix sum of solution sizes
(spec 5 shared-resource policy). -/
def metasOf : Nat → List BucketSolved → List BucketMeta
  | _, [] => []
  | off, b :: rest =>
    ⟨b.seed, b.seg, b.L, off, b.tree⟩ :: metasOf (off + b.sol.flatten.length) rest

/-- The global solution bitstring `S`: concatenation of the per-bucket
solutions (spec 3). -/
def globalS (solved : List BucketSolved) : Bits :=
  (solved.map (fun b => b.sol.flatten)).flatten

/-- The bit offset of bucket `i` in the global `S` (the prefix sum of the
earlier buckets' solution sizes, spec 5). -/
def prefixLen (solved : List BucketSolved) (i : Nat) : Nat :=
  ((solved.take i).map (fun b => b.sol.flatten.length)).sum

/-- Modelled from the spec: the whole CSF (spec 2 CSF component). -/
structure CSFModel where
  masterSeed : Nat
  bucketBits : Nat
  metas : List BucketMeta
  s : Bits
  deriving DecidableEq, Repr

/-- Modelled from the spec: the construction pipeline (spec 2 control flow):
bucketed store with collision detection, then per-bucket codec, system and
solver, then assembly of the global `S` and bucket index. -/
def buildCSF (hash : HashFn) (cfg : BuildConfig) (keys : List Key)
    (values : List Nat) : Except BuildError CSFModel :=
  match buildStore hash cfg keys with
  | .error e => .error e
  | .ok _ => do
    let solved ← exMap
      (fun bid => buildBucket hash cfg.attemptSeeds
        ((keys.zip values).filter (fun p => keyBucket hash cfg p.1 = bid)))
      (List.range (2 ^ cfg.bucketBits))
    pure { masterSeed := cfg.masterSeed, bucketBits := cfg.bucketBits,
           metas := metasOf 0 solved, s := globalS solved }

/-- Modelled from the spec: the query path (spec 4.6): locate the bucket,
fetch `(seed, offset, L, codebook)`, read the three `L`-bit slices of `S` at
the key's edge endpoints, XOR them, and Huffman-decode the result. -/
def queryCSF (hash : HashFn) (csf : CSFModel) (k : Key) : Option Nat :=
  match csf.metas[bucketOf csf.bucketBits (keyHash hash csf.masterSeed k)]? with
  | none => none
  | some meta =>
    match meta.tree with
    | none => none
    | some tree =>
      let word := (edgeVars meta.seg (keyHash hash meta.seed k)).foldl
        (fun acc v => bxor acc (readBits csf.s (meta.offset + v * meta.L) meta.L))
        (zeroBits meta.L)
      (decodeWalk tree word).map (·.1)

/-! ## Spec-modelled core: serialization (spec 4.9, 6) -/

/-- Magic number of the persisted format (spec 6 layout). -/
def MAGIC : Nat := 51966

/-- Format version (spec 6 layout). -/
def VERSION : Nat := 1

/-- Value-type tag of the scalar integer CSF modelled here (spec 6 layout). -/
def TYPETAG : Nat := 3

/-- Encode one bit as a token. -/
def encBool (b : Bool) : Nat := if b then 1 else 0

/-- Length-prefixed encoding of a bitstring (`S_LENGTH | S_BITS`, spec 6). -/
def encBits (s : Bits) : List Nat := s.length :: s.map encBool

/-- Preorder encoding of a code tree (the codebook blob, spec 6). -/
def encTree : HTree → List Nat
  | .leaf s => [0, s]
  | .node l r => 1 :: (encTree l ++ encTree r)

/-- Encoding of an optional code tree. -/
def encOptTree : Option HTree → List Nat
  | none => [0]
  | some t => 1 :: encTree t

/-- Encoding of one bucket descriptor
`(seed, seg, code_length, start_offset, codebook_blob)` (spec 6). -/
def encMeta (m : BucketMeta) : List Nat :=
  m.seed :: m.seg :: m.L :: m.offset :: encOptTree m.tree

/-- Modelled from the spec: the persisted single-file format (spec 6):
magic, version, value-type tag, hasher seed, bucket-count data, bucket
descriptors, the global `S`, then the filter and majority-value flags
(zero: the scalar file carries no prefilter). -/
def saveCSF (csf : CSFModel) : List Nat :=
  [MAGIC, VERSION, TYPETAG, csf.masterSeed, csf.bucketBits, csf.metas.length]
  ++ (csf.metas.map encMeta).flatten
  ++ encBits csf.s
  ++ [0, 0]

/-- Number of nodes and leaves of a code tree (decoder fuel measure). -/
def treeSize : HTree → Nat
  | .leaf _ => 1
  | .node l r => 1 + treeSize l + treeSize r

/-- Fuel measure of an optional code tree. -/
def optTreeSize : Option HTree → Nat
  | none => 0
  | some t => treeSize t

/-- Decode one bit token. -/
def decBool (n : Nat) : Option Bool :=
  if n = 0 then some false else if n = 1 then some true else none

/-- Decode a counted list of tokens. -/
def decListF (dec : Nat → Option β) : Nat → List Nat → Option (List β × List Nat)
  | 0, rest => some ([], rest)
  | _ + 1, [] => none
  | n + 1, x :: rest => do
    let b ← dec x
    let p ← decListF dec n rest
    pure (b :: p.1, p.2)

/-- Decode a length-prefixed bitstring. -/
def decBits : List Nat → Option (Bits × List Nat)
  | [] => none
  | len :: rest => decListF decBool len rest

/-- Fuelled decoder for preorder-encoded code trees. -/
def decTree : Nat → List Nat → Option (HTree × List Nat)
  | 0, _ => none
  | _ + 1, 0 :: s :: rest => some (.leaf s, rest)
  | fuel + 1, 1 :: rest => do
    let p ← decTree fuel rest
    let q ← decTree fuel p.2
    pure (.node p.1 q.1, q.2)
  | _ + 1, _ => none

/-- Decoder for an optional code tree. -/
def decOptTree (fuel : Nat) : List Nat → Option (Option HTree × List Nat)
  | 0 :: rest => some (none, rest)
  | 1 :: rest => (decTree fuel rest).map (fun p => (some p.1, p.2))
  | _ => none

/-- Decoder for one bucket descriptor. -/
def decMeta (fuel : Nat) : List Nat → Option (BucketMeta × List Nat)
  | seed :: seg :: L :: off :: rest =>
    (decOptTree fuel rest).map (fun p => (⟨seed, seg, L, off, p.1⟩, p.2))
  | _ => none

/-- Decoder for a counted list of bucket descriptors. -/
def decMetas (fuel : Nat) : Nat → List Nat → Option (List BucketMeta × List Nat)
  | 0, rest => some ([], rest)
  | n + 1, rest => do
    let p ← decMeta fuel rest
    let q ← decMetas fuel n p.2
    pure (p.1 :: q.1, q.2)

/-- Modelled from the spec: load a persisted CSF (spec 4.9): validate magic,
version and type tag, then read the bucket index, the global `S`, and the
filter/majority flags.  Any mismatch fails (the `Deserialization` error). -/
def loadCSF (data : List Nat) : Option CSFModel :=
  match data with
  | magic :: ver :: tag :: seed :: bits :: count :: rest =>
    if magic = MAGIC ∧ ver = VERSION ∧ tag = TYPETAG then do
      let p ← decMetas rest.length count rest
      let q ← decBits p.2
      match q.2 with
      | [0, 0] => pure ⟨seed, bits, p.1, q.1⟩
      | _ => none
    else none
  | _ => none

/-! ## Spec-modelled core: AMQ prefilters (spec 4.7) -/

/-- The prefilter configurations (spec 6 constructor options). -/
inductive FilterCfg where
  | bloom (size numHashes : Nat)
  | xorFp (fpBits : Nat)
  | binaryFuse (fpBits : Nat)
  deriving DecidableEq, Repr

/-- A built Bloom filter: bit array of length `size` (`size` is positive,
enforced at construction). -/
structure BloomData where
  size : Nat
  numHashes : Nat
  seed : Nat
  bits : Bits
  deriving DecidableEq, Repr

/-- The `numHashes` bit positions of a key (derived hash seeds). -/
def bloomPositions (hash : HashFn) (size numHashes seed : Nat) (k : Key) :
    List Nat :=
  (List.range numHashes).map (fun i => keyHash hash (seed + i) k % size)

/-- Set the bits of one key. -/
def bloomInsert (bits : Bits) (ps : List Nat) : Bits :=
  ps.foldl (fun b p => b.set p true) bits

/-- Modelled from the spec: Bloom filter construction over the minority keys
(spec 4.7); a zero-size filter is rejected as a construction failure. -/
def bloomBuild (hash : HashFn) (size numHashes seed : Nat) (keys : List Key) :
    Except BuildError BloomData :=
  if size = 0 then .error .solverExhausted
  else .ok ⟨size, numHashes, seed,
    keys.foldl
      (fun b k => bloomInsert b (bloomPositions hash size numHashes seed k))
      (zeroBits size)⟩

/-- Bloom lookup: all positions set. -/
def bloomContains (hash : HashFn) (bd : BloomData) (k : Key) : Bool :=
  (bloomPositions hash bd.size bd.numHashes bd.seed k).all
    (fun p => bd.bits.getD p false)

/-- The four edge endpoints of the arity-4 binary-fuse construction
(spec 4.7), one from each of four disjoint ranges of size `seg`. -/
def edgeVars4 (seg h : Nat) : List Nat :=
  [lane0 h % seg, seg + lane1 h % seg, 2 * seg + lane2 h % seg,
   3 * seg + lane3 h % seg]

/-- The low `w` bits of `n`, least significant first. -/
def natToBits : Nat → Nat → Bits
  | 0, _ => []
  | w + 1, n => (n % 2 == 1) :: natToBits w (n / 2)

/-- The fingerprint of a key: `fpBits` bits of an independently seeded hash. -/
def fpOf (hash : HashFn) (seed fpBits : Nat) (k : Key) : Bits :=
  natToBits fpBits (keyHash hash (seed + 1) k)

/-- A built XOR (arity 3) or binary-fuse (arity 4) filter: a solved
fingerprint table (spec 4.7 fingerprint-assignment, analogous to peeling). -/
structure FingerData where
  seed : Nat
  seg : Nat
  fpBits : Nat
  arity4 : Bool
  sol : List Bits
  deriving DecidableEq, Repr

/-- The fingerprint equation of one key: the XOR of its table slots equals
its fingerprint. -/
def fingerRow (hash : HashFn) (arity4 : Bool) (seed seg fpBits : Nat) (k : Key) :
    Row :=
  { vars := if arity4 then edgeVars4 seg (keyHash hash seed k)
            else edgeVars seg (keyHash hash seed k),
    rhs := fpOf hash seed fpBits k }

/-- Modelled from the spec: per-range size of the XOR filter table
(about `1.23 · n` slots over three ranges, spec 4.7). -/
def segXor (n : Nat) : Nat := max 1 ((123 * n + 299) / 300)

/-- Modelled from the spec: per-range size of the binary-fuse filter table
(about `1.075 · n` slots over four ranges, spec 4.7). -/
def segFuse (n : Nat) : Nat := max 1 ((215 * n + 799) / 800)

/-- One fingerprint-assignment attempt under a seed (spec 4.7). -/
def fingerAttempt (hash : HashFn) (arity4 : Bool) (seg fpBits : Nat)
    (keys : List Key) (seed : Nat) : Option FingerData :=
  (solveSystem fpBits ((if arity4 then 4 else 3) * seg)
      (keys.map (fingerRow hash arity4 seed seg fpBits))).map
    (fun sol => ⟨seed, seg, fpBits, arity4, sol⟩)

/-- Modelled from the spec: XOR / binary-fuse construction with seed retries
(spec 4.7, spec 7 filter construction exhaustion). -/
def fingerBuild (hash : HashFn) (seeds : List Nat) (arity4 : Bool)
    (fpBits : Nat) (keys : List Key) : Except BuildError FingerData :=
  let seg := if arity4 then segFuse keys.length else segXor keys.length
  trySeeds (fingerAttempt hash arity4 seg fpBits keys) seeds

/-- Fingerprint filter lookup. -/
def fingerContains (hash : HashFn) (fd : FingerData) (k : Key) : Bool :=
  let h := keyHash hash fd.seed k
  xorRow fd.fpBits fd.sol
      (if fd.arity4 then edgeVars4 fd.seg h else edgeVars fd.seg h)
    == fpOf hash fd.seed fd.fpBits k

/-- A built prefilter of any of the three variants. -/
inductive AMQ where
  | bloomA (bd : BloomData)
  | fingerA (fd : FingerData)
  deriving DecidableEq, Repr

/-- The shared lookup contract of the three variants (spec 4.7). -/
def amqContains (hash : HashFn) (a : AMQ) (k : Key) : Bool :=
  match a with
  | .bloomA bd => bloomContains hash bd k
  | .fingerA fd => fingerContains hash fd k

/-- Build the configured prefilter over the minority keys (spec 4.7). -/
def amqBuild (hash : HashFn) (seeds : List Nat) (fseed : Nat) (fcfg : FilterCfg)
    (keys : List Key) : Except BuildError AMQ :=
  match fcfg with
  | .bloom size nh => (bloomBuild hash size nh fseed keys).map .bloomA
  | .xorFp fpBits =>
    (fingerBuild hash (seeds.map (· + fseed)) false fpBits keys).map .fingerA
  | .binaryFuse fpBits =>
    (fingerBuild hash (seeds.map (· + fseed)) true fpBits keys).map .fingerA

/-- The majority ("most common") value of the input (spec 4.7). -/
def mostCommon (vals : List Nat) : Nat :=
  ((freqTable vals).foldl (fun best p => if best.2 < p.2 then p else best)
    (0, 0)).1

/-- A CSF wrapped by a prefilter with its stored majority value (spec 4.7). -/
structure FilteredCSF where
  amq : AMQ
  majority : Nat
  csf : CSFModel
  deriving DecidableEq, Repr

/-- Modelled from the spec: construction with a prefilter (spec 4.7):
detect the majority value, build the filter over the minority keys, then
build the inner CSF over every input key the filter reports positive — all
minority keys and any majority keys that are filter false positives — so
that the false-positive rate cannot produce a wrong answer for an in-set
key (spec 8, Filter fidelity). -/
def buildFilteredCSF (hash : HashFn) (cfg : BuildConfig) (fseed : Nat)
    (fcfg : FilterCfg) (keys : List Key) (values : List Nat) :
    Except BuildError FilteredCSF :=
  match buildStore hash cfg keys with
  | .error e => .error e
  | .ok _ => do
    let majority := mostCommon values
    let amq ← amqBuild hash cfg.attemptSeeds fseed fcfg
      (((keys.zip values).filter (fun p => p.2 ≠ majority)).map (·.1))
    let inPairs := (keys.zip values).filter (fun p => amqContains hash amq p.1)
    let csf ← buildCSF hash cfg (inPairs.map (·.1)) (inPairs.map (·.2))
    pure ⟨amq, majority, csf⟩

/-- Modelled from the spec: the query path with a prefilter (spec 3 Filter):
a negative filter answer returns the stored majority value, a positive one
consults the inner CSF. -/
def queryFiltered (hash : HashFn) (f : FilteredCSF) (k : Key) : Option Nat :=
  if amqContains hash f.amq k then queryCSF hash f.csf k else some f.majority

/-! ## Witness fixtures -/

/-- A per-class load outcome on which the first two classes fail to
deserialize and the third succeeds. -/
def outcomeW : ClassTag → Except Unit Backend
  | .csfString => .ok (mkBackend .csfString)
  | _ => .error ()

/-- A concrete `CSFChar10` backend. -/
def backendW : Backend := ⟨.csfChar10, fun _ => [[65], [66]]⟩

/-- A lookup-table hash placing keys `[1]` and `[2]` in distinct buckets of a
two-bucket layout. -/
def hashW : HashFn := fun _ k =>
  if k = [1] then 0 else if k = [2] then 2 ^ 127 else 2 ^ 126

/-- A two-bucket build configuration with a single solver seed. -/
def cfgW : BuildConfig := ⟨0, 1, [0]⟩

/-- Two keys for the build/save/load/query witness. -/
def keysW : List Key := [[1], [2]]

/-- Their values. -/
def valsW : List Nat := [7, 9]

/-- A default CSF used for the error arm of the witness fixture. -/
def csfDefaultW : CSFModel := ⟨0, 0, [], []⟩

/-- The CSF built from the witness fixture. -/
def csfW : CSFModel :=
  match buildCSF hashW cfgW keysW valsW with
  | .ok c => c
  | .error _ => csfDefaultW

/-- A head-byte hash: equal keys collide for every seed. -/
def hashC2 : HashFn := fun _ k => k.headD 0

/-- The duplicate-key input of the collision test. -/
def keysC2 : List Key := [[49], [50], [51], [52], [52]]

/-- Its values. -/
def valsC2 : List Nat := [1, 2, 3, 4, 5]

/-- A lookup-table hash spreading three keys over four buckets. -/
def hashF : HashFn := fun _ k =>
  if k = [1] then 0 else if k = [2] then 2 ^ 126 else 2 ^ 127

/-- A four-bucket build configuration with a single solver seed. -/
def cfgF : BuildConfig := ⟨0, 2, [0]⟩

/-- Three keys for the filtered-CSF witness. -/
def keysF : List Key := [[1], [2], [3]]

/-- Their values: majority `5`, minority `9`. -/
def valsF : List Nat := [5, 5, 9]

/-- An 8-bit 2-hash Bloom prefilter configuration. -/
def fcfgF : FilterCfg := .bloom 8 2

/-- A default filtered CSF used for the error arm of the witness fixture. -/
def fcsfDefaultW : FilteredCSF := ⟨.bloomA ⟨0, 0, 0, []⟩, 0, csfDefaultW⟩

/-- The filtered CSF built from the witness fixture. -/
def fcsfW : FilteredCSF :=
  match buildFilteredCSF hashF cfgF 0 fcfgF keysF valsF with
  | .ok c => c
  | .error _ => fcsfDefaultW

/-! # Theorems -/

/-! ## C10: the `python_bindings/carameldb` MultisetCSF constructor -/

/-- C10 (amended): with `multiset_permute_optimization` left at its default
`False`, every `MultisetCSF.__init__` call whose values convert to an array
with at least one column raises `TypeError` at the first per-column
`Caramel` call, whose third positional argument lands on `use_bloom_filter`
while `use_bloom_filter` is also passed by keyword. -/
theorem multisetInit_typeError (n : Nat) (hn : 1 ≤ n) :
    multisetInit true n false = .error .typeError := by
  match n, hn with
  | n + 1, _ => rfl

/-- Witness: a single-column construction attempt raises `TypeError`. -/
theorem multisetInit_typeError_witness :
    multisetInit true 1 false = .error .typeError :=
  multisetInit_typeError 1 (by decide)

/-- C10 counterexample: with `multiset_permute_optimization=True` the call
raises `NameError` (`permute_values` is undefined in that module), not
`TypeError`, so the claim as stated fails at this input. -/
theorem multisetInit_permute_cex :
    multisetInit true 1 true = .error .nameError ∧
    PyErr.nameError ≠ PyErr.typeError := by
  exact ⟨rfl, by decide⟩

/-! ## C9: the query wrapper -/

/-- C9 (amended): `_wrap_backend` wraps exactly the `CSFChar10`/`CSFChar12`
backends in a `CSFQueryWrapper` whose `query` joins the backend's
character-sequence result, and every attribute access other than `query` and
the wrapper's own attributes (`_csf`, `_postprocess_fn`, `__dir__`,
`__repr__`) resolves to the wrapped backend; every other backend class is
returned unwrapped. -/
theorem wrapBackend_spec (b : Backend) :
    (b.cls = .csfChar10 ∨ b.cls = .csfChar12 →
      wrapBackend b = .wrapped ⟨b, List.flatten⟩ ∧
      ∀ q, QueryWrapper.query ⟨b, List.flatten⟩ q = (b.queryFn q).flatten) ∧
    (∀ a : AttrName, a ∉ wrapperOwnAttrs → resolveAttr a = .delegated) ∧
    (¬ (b.cls = .csfChar10 ∨ b.cls = .csfChar12) → wrapBackend b = .plain b) := by
  refine ⟨fun hc => ⟨?_, fun q => rfl⟩, fun a ha => ?_, fun hc => ?_⟩
  · unfold wrapBackend; rw [if_pos hc]
  · unfold resolveAttr; rw [if_neg ha]
  · unfold wrapBackend; rw [if_neg hc]

/-- Witness: a `CSFChar10` backend is wrapped and `save` delegates. -/
theorem wrapBackend_spec_witness :
    wrapBackend backendW = .wrapped ⟨backendW, List.flatten⟩ ∧
    resolveAttr .save = .delegated :=
  ⟨((wrapBackend_spec backendW).1 (Or.inl rfl)).1,
   (wrapBackend_spec backendW).2.1 .save (by decide)⟩

/-- C9 counterexample: accessing `_csf` is an attribute access other than
`query`, yet it resolves on the wrapper itself (its instance dictionary),
not to an attribute of the wrapped backend. -/
theorem wrapper_attr_cex :
    AttrName.csfField ≠ AttrName.query ∧
    resolveAttr .csfField ≠ .delegated := by decide

/-! ## C5: the `Caramel` constructor input checks -/

/-- C5: for empty keys, empty values, mismatched lengths, or a first key
that is neither `str` nor `bytes`, `Caramel` raises `ValueError` before any
backend CSF is constructed. -/
theorem pyCaramel_input_errors (keys : List PyKey) (values : RawValues)
    (permute : Bool) (m : Option Nat)
    (h : keys = [] ∨ values.len = 0 ∨ keys.length ≠ values.len ∨
      isStrOrBytes (keys.headD .otherK) = false) :
    pyCaramel keys values permute m = .error .valueError := by
  unfold pyCaramel
  split_ifs with h1 h2 h3 h4
  all_goals try rfl
  exfalso
  rcases h with h | h | h | h
  · exact h1 (by simp [h])
  · exact h2 h
  · exact h3 h
  · rw [h] at h4; simp at h4

/-- Witness: empty keys raise `ValueError`. -/
theorem pyCaramel_input_errors_witness :
    pyCaramel [] ⟨1, none⟩ false none = .error .valueError :=
  pyCaramel_input_errors [] ⟨1, none⟩ false none (Or.inl rfl)

/-! ## C4: `load` dispatch over `CLASS_LIST` -/

theorem tryLoadClasses_error_iff (outcome : ClassTag → Except Unit Backend) :
    ∀ l : List ClassTag,
      (tryLoadClasses outcome l = .error .valueError ↔
        ∀ c ∈ l, outcome c = .error ()) := by
  intro l
  induction l with
  | nil => simp [tryLoadClasses]
  | cons c cs ih =>
    simp only [tryLoadClasses]
    cases h : outcome c with
    | ok b =>
      constructor
      · intro hcontra; cases hcontra
      · intro hall
        have hc := hall c (by simp)
        rw [h] at hc; cases hc
    | error e =>
      cases e
      rw [ih]
      constructor
      · intro hall c2 hc2
        rcases List.mem_cons.mp hc2 with rfl | hmem
        · exact h
        · exact hall c2 hmem
      · intro hall c2 hc2
        exact hall c2 (List.mem_cons_of_mem c hc2)

theorem tryLoadClasses_append (outcome : ClassTag → Except Unit Backend)
    (l1 l2 : List ClassTag) (c : ClassTag) (b : Backend)
    (hfail : ∀ d ∈ l1, outcome d = .error ()) (hok : outcome c = .ok b) :
    tryLoadClasses outcome (l1 ++ c :: l2) = .ok (wrapBackend b) := by
  induction l1 with
  | nil => simp [tryLoadClasses, hok]
  | cons d ds ih =>
    have hd := hfail d (by simp)
    simp only [List.cons_append, tryLoadClasses, hd]
    exact ih (fun d2 h2 => hfail d2 (by simp [h2]))

/-- C4: `load` tries the classes in `CLASS_LIST` order, returns the wrapped
result of the first class whose load does not raise
`CsfDeserializationException`, and raises `ValueError` iff every class in
the list fails that way. -/
theorem load_dispatch_spec (outcome : ClassTag → Except Unit Backend) :
    (loadModel outcome = .error .valueError ↔
      ∀ c ∈ CLASS_LIST, outcome c = .error ()) ∧
    ∀ l1 c l2 b, CLASS_LIST = l1 ++ c :: l2 →
      (∀ d ∈ l1, outcome d = .error ()) → outcome c = .ok b →
      loadModel outcome = .ok (wrapBackend b) := by
  constructor
  · exact tryLoadClasses_error_iff outcome CLASS_LIST
  · intro l1 c l2 b hsplit hfail hok
    unfold loadModel
    rw [hsplit]
    exact tryLoadClasses_append outcome l1 l2 c b hfail hok

/-- Witness: on an outcome whose first two classes fail, `load` returns the
wrapped result of the third. -/
theorem load_dispatch_spec_witness :
    loadModel outcomeW = .ok (wrapBackend (mkBackend .csfString)) :=
  (load_dispatch_spec outcomeW).2 [.csfChar10, .csfChar12] .csfString
    [.csfUint32, .csfUint64, .msChar10, .msChar12, .msString, .msUint32,
     .msUint64]
    (mkBackend .csfString) rfl (by intro d hd; fin_cases hd <;> rfl) rfl

/-! ## C6, C7: automatic backend inference -/

@[simp]
theorem exceptBind_ok (a : α) (f : α → Except ε β) :
    (Except.ok a >>= f) = f a := rfl

@[simp]
theorem exceptBind_error (e : ε) (f : α → Except ε β) :
    ((Except.error e : Except ε α) >>= f) = .error e := rfl

@[simp]
theorem exceptPure_eq_ok (a : α) : (pure a : Except ε α) = Except.ok a := rfl

theorem exMap_pyLen_strE (ls : List Nat) :
    exMap pyLen (ls.map NpElem.strE) = .ok ls := by
  induction ls with
  | nil => rfl
  | cons l rest ih => simp [exMap, pyLen, ih]

theorem exMap_headElem_strE (ls : List Nat) (rests : List (List NpElem))
    (h : ls.length = rests.length) :
    exMap headElem (List.zipWith (fun l r => NpElem.strE l :: r) ls rests)
      = .ok (ls.map NpElem.strE) := by
  induction ls generalizing rests with
  | nil =>
    cases rests with
    | nil => rfl
    | cons r rs => simp at h
  | cons l ls ih =>
    cases rests with
    | nil => simp at h
    | cons r rs =>
      simp [exMap, headElem, ih rs (by simpa using h)]

theorem inferLength_of_subset (v : NpValues) (l0 : Nat) (rest : List Nat)
    (m : Option Nat)
    (hsub : inferSubset v m = .ok ((l0 :: rest).map NpElem.strE)) :
    inferLength v m = .ok (if rest.all (· = l0) then some l0 else none) := by
  simp only [inferLength, hsub, exceptBind_ok, exMap_pyLen_strE]
  by_cases h : rest.all (· = l0) <;> simp [h]

theorem classifyElem_strE (n : Nat) (multiset : Bool) (v : NpValues)
    (m : Option Nat) (ol : Option Nat) (h : inferLength v m = .ok ol) :
    classifyElem (.strE n) multiset v m =
      .ok (if ol = some 10 then (if multiset then .msChar10 else .csfChar10)
           else if ol = some 12 then (if multiset then .msChar12 else .csfChar12)
           else (if multiset then .msString else .csfString)) := by
  unfold classifyElem
  rw [h, exceptBind_ok]
  by_cases h10 : ol = some 10 <;> by_cases h12 : ol = some 12 <;>
    simp [h10, h12]

theorem all_eq_of_forall {ls : List Nat} {l0 c : Nat}
    (hall : ∀ l ∈ l0 :: ls, l = c) : l0 = c ∧ ls.all (· = l0) = true := by
  have h0 : l0 = c := hall l0 (by simp)
  refine ⟨h0, List.all_eq_true.mpr fun l hl => ?_⟩
  have := hall l (List.mem_cons_of_mem _ hl)
  simp [this, h0]

/-- The common-length outcome for a 1-D or 2-D str array whose examined
first-column lengths are `ls = l0 :: rest`. -/
theorem strE_dispatch (multiset : Bool) (v : NpValues) (n l0 : Nat)
    (rest : List Nat)
    (hsub : inferSubset v none = .ok ((l0 :: rest).map NpElem.strE)) :
    ((∀ l ∈ l0 :: rest, l = 10) →
      classifyElem (.strE n) multiset v none =
        .ok (if multiset then .msChar10 else .csfChar10)) ∧
    ((∀ l ∈ l0 :: rest, l = 12) →
      classifyElem (.strE n) multiset v none =
        .ok (if multiset then .msChar12 else .csfChar12)) ∧
    (¬ (∀ l ∈ l0 :: rest, l = 10) → ¬ (∀ l ∈ l0 :: rest, l = 12) →
      classifyElem (.strE n) multiset v none =
        .ok (if multiset then .msString else .csfString)) := by
  have hlen := inferLength_of_subset v l0 rest none hsub
  refine ⟨fun h10 => ?_, fun h12 => ?_, fun hn10 hn12 => ?_⟩
  · obtain ⟨h0, hall⟩ := all_eq_of_forall h10
    rw [classifyElem_strE n multiset v none (some l0) (by rw [hlen]; simp [hall])]
    simp [h0]
  · obtain ⟨h0, hall⟩ := all_eq_of_forall h12
    rw [classifyElem_strE n multiset v none (some l0) (by rw [hlen]; simp [hall])]
    simp [h0]
  · by_cases hall : rest.all (· = l0) = true
    · have heach : ∀ l ∈ l0 :: rest, l = l0 := by
        intro l hl
        rcases List.mem_cons.mp hl with rfl | hmem
        · rfl
        · exact of_decide_eq_true (List.all_eq_true.mp hall l hmem)
      have h0ne10 : l0 ≠ 10 := fun hc => hn10 (fun l hl => (heach l hl).trans hc)
      have h0ne12 : l0 ≠ 12 := fun hc => hn12 (fun l hl => (heach l hl).trans hc)
      rw [classifyElem_strE n multiset v none (some l0) (by rw [hlen]; simp [hall])]
      simp [h0ne10, h0ne12]
    · rw [classifyElem_strE n multiset v none none (by rw [hlen]; simp [hall])]
      simp

/-- C6: the backend mapping of `_infer_backend` with the default
`max_to_infer`: 1-D non-uint64 integers to `CSFUint32`, uint64 to
`CSFUint64`; 1-D str/bytes of uniform length 10 to `CSFChar10`, of uniform
length 12 to `CSFChar12`, any other str/bytes to `CSFString`; 2-D arrays to
the corresponding Multiset classes; any other element type, and any other
dimensionality, raises `ValueError`. -/
theorem inferBackend_mapping :
    (∀ (u : Bool) (es : List NpElem),
      inferBackend (.d1 (.intE u :: es)) none =
        .ok (if u then .csfUint64 else .csfUint32)) ∧
    (∀ ls : List Nat, ls ≠ [] → (∀ l ∈ ls, l = 10) →
      inferBackend (.d1 (ls.map .strE)) none = .ok .csfChar10) ∧
    (∀ ls : List Nat, ls ≠ [] → (∀ l ∈ ls, l = 12) →
      inferBackend (.d1 (ls.map .strE)) none = .ok .csfChar12) ∧
    (∀ ls : List Nat, ls ≠ [] → ¬ (∀ l ∈ ls, l = 10) → ¬ (∀ l ∈ ls, l = 12) →
      inferBackend (.d1 (ls.map .strE)) none = .ok .csfString) ∧
    (∀ es : List NpElem,
      inferBackend (.d1 (.otherE :: es)) none = .error .valueError) ∧
    (∀ (u : Bool) (r : List NpElem) (rows : List (List NpElem)),
      inferBackend (.d2 ((.intE u :: r) :: rows)) none =
        .ok (if u then .msUint64 else .msUint32)) ∧
    (∀ (ls : List Nat) (rests : List (List NpElem)),
      ls.length = rests.length → ls ≠ [] → (∀ l ∈ ls, l = 10) →
      inferBackend (.d2 (List.zipWith (fun l r => NpElem.strE l :: r) ls rests))
        none = .ok .msChar10) ∧
    (∀ (ls : List Nat) (rests : List (List NpElem)),
      ls.length = rests.length → ls ≠ [] → (∀ l ∈ ls, l = 12) →
      inferBackend (.d2 (List.zipWith (fun l r => NpElem.strE l :: r) ls rests))
        none = .ok .msChar12) ∧
    (∀ (ls : List Nat) (rests : List (List NpElem)),
      ls.length = rests.length → ls ≠ [] →
      ¬ (∀ l ∈ ls, l = 10) → ¬ (∀ l ∈ ls, l = 12) →
      inferBackend (.d2 (List.zipWith (fun l r => NpElem.strE l :: r) ls rests))
        none = .ok .msString) ∧
    (∀ (r : List NpElem) (rows : List (List NpElem)),
      inferBackend (.d2 ((.otherE :: r) :: rows)) none = .error .valueError) ∧
    inferBackend .dHigher none = .error .valueError := by
  have hd1sub : ∀ ls : List Nat,
      inferSubset (.d1 (ls.map NpElem.strE)) none = .ok (ls.map NpElem.strE) :=
    fun ls => rfl
  have hd2sub : ∀ (ls : List Nat) (rests : List (List NpElem)),
      ls.length = rests.length →
      inferSubset
        (.d2 (List.zipWith (fun l r => NpElem.strE l :: r) ls rests)) none
        = .ok (ls.map NpElem.strE) := by
    intro ls rests hlen
    simpa [inferSubset, takeOpt] using exMap_headElem_strE ls rests hlen
  refine ⟨fun u es => by cases u <;> rfl,
    fun ls hne hall => ?_, fun ls hne hall => ?_, fun ls hne h10 h12 => ?_,
    fun es => rfl,
    fun u r rows => by cases u <;> rfl,
    fun ls rests hlen hne hall => ?_, fun ls rests hlen hne hall => ?_,
    fun ls rests hlen hne h10 h12 => ?_,
    fun r rows => rfl, rfl⟩
  · obtain ⟨l0, rest, rfl⟩ := List.exists_cons_of_ne_nil hne
    simpa [inferBackend] using
      (strE_dispatch false (.d1 ((l0 :: rest).map .strE)) l0 l0 rest
        (hd1sub _)).1 hall
  · obtain ⟨l0, rest, rfl⟩ := List.exists_cons_of_ne_nil hne
    simpa [inferBackend] using
      (strE_dispatch false (.d1 ((l0 :: rest).map .strE)) l0 l0 rest
        (hd1sub _)).2.1 hall
  · obtain ⟨l0, rest, rfl⟩ := List.exists_cons_of_ne_nil hne
    simpa [inferBackend] using
      (strE_dispatch false (.d1 ((l0 :: rest).map .strE)) l0 l0 rest
        (hd1sub _)).2.2 h10 h12
  · obtain ⟨l0, rest, rfl⟩ := List.exists_cons_of_ne_nil hne
    cases rests with
    | nil => simp at hlen
    | cons r0 rs =>
      simpa [inferBackend] using
        (strE_dispatch true
          (.d2 (List.zipWith (fun l r => NpElem.strE l :: r) (l0 :: rest)
            (r0 :: rs))) l0 l0 rest (hd2sub _ _ hlen)).1 hall
  · obtain ⟨l0, rest, rfl⟩ := List.exists_cons_of_ne_nil hne
    cases rests with
    | nil => simp at hlen
    | cons r0 rs =>
      simpa [inferBackend] using
        (strE_dispatch true
          (.d2 (List.zipWith (fun l r => NpElem.strE l :: r) (l0 :: rest)
            (r0 :: rs))) l0 l0 rest (hd2sub _ _ hlen)).2.1 hall
  · obtain ⟨l0, rest, rfl⟩ := List.exists_cons_of_ne_nil hne
    cases rests with
    | nil => simp at hlen
    | cons r0 rs =>
      simpa [inferBackend] using
        (strE_dispatch true
          (.d2 (List.zipWith (fun l r => NpElem.strE l :: r) (l0 :: rest)
            (r0 :: rs))) l0 l0 rest (hd2sub _ _ hlen)).2.2 h10 h12

/-- Witness: the uint32/uint64 split and the Char10 dispatch at concrete
inputs (the shapes of `test_uint32_vs_64_values` and
`test_auto_infer_char10`). -/
theorem inferBackend_mapping_witness :
    inferBackend (.d1 [.intE false, .intE false, .intE false]) none
       = .ok .csfUint32 ∧
    inferBackend (.d1 [.intE true, .intE true, .intE true]) none
       = .ok .csfUint64 ∧
    inferBackend (.d1 [.strE 10, .strE 10]) none = .ok .csfChar10 ∧
    inferBackend (.d1 [.strE 3, .strE 4]) none = .ok .csfString :=
  ⟨inferBackend_mapping.1 false _, inferBackend_mapping.1 true _,
   inferBackend_mapping.2.1 [10, 10] (by decide) (by decide),
   inferBackend_mapping.2.2.2.1 [3, 4] (by decide) (by decide) (by decide)⟩

theorem exMap_headElem_congr (r1 r2 : List (List NpElem))
    (h : r1.map List.head? = r2.map List.head?) :
    exMap headElem r1 = exMap headElem r2 := by
  induction r1 generalizing r2 with
  | nil =>
    cases r2 with
    | nil => rfl
    | cons b t2 => simp at h
  | cons a t ih =>
    cases r2 with
    | nil => simp at h
    | cons b t2 =>
      simp only [List.map_cons, List.cons.injEq] at h
      have hab : headElem a = headElem b := by
        cases a <;> cases b <;> simp_all [headElem]
      simp only [exMap, hab]
      rw [ih t2 h.2]

theorem inferLength_d1_take (es1 es2 : List NpElem) (m : Nat)
    (h : es1.take m = es2.take m) :
    inferLength (.d1 es1) (some m) = inferLength (.d1 es2) (some m) := by
  simp only [inferLength, inferSubset, takeOpt, h]

theorem inferLength_d2_take (r1 r2 : List (List NpElem)) (m : Nat)
    (h : (r1.take m).map List.head? = (r2.take m).map List.head?) :
    inferLength (.d2 r1) (some m) = inferLength (.d2 r2) (some m) := by
  simp only [inferLength, inferSubset, takeOpt]
  rw [exMap_headElem_congr _ _ h]

theorem classifyElem_congr (e1 e2 : NpElem) (multiset : Bool)
    (v1 v2 : NpValues) (m : Option Nat) (hk : e1.kind = e2.kind)
    (hlen : inferLength v1 m = inferLength v2 m) :
    classifyElem e1 multiset v1 m = classifyElem e2 multiset v2 m := by
  cases e1 with
  | intE b1 =>
    cases e2 with
    | intE b2 =>
      cases b1 <;> cases b2
      · rfl
      · simp [NpElem.kind] at hk
      · simp [NpElem.kind] at hk
      · rfl
    | strE n2 => cases b1 <;> simp [NpElem.kind] at hk
    | otherE => cases b1 <;> simp [NpElem.kind] at hk
  | strE n1 =>
    cases e2 with
    | intE b2 => cases b2 <;> simp [NpElem.kind] at hk
    | strE n2 => simp only [classifyElem]; rw [hlen]
    | otherE => simp [NpElem.kind] at hk
  | otherE =>
    cases e2 with
    | intE b2 => cases b2 <;> simp [NpElem.kind] at hk
    | strE n2 => simp [NpElem.kind] at hk
    | otherE => rfl

/-- C7 (amended): in the pybind frontend, inference with `max_to_infer = m`
examines only the first `m` values (for 2-D input, the first entry of each
of the first `m` rows): two arrays of the same shape and dtype that agree on
those examined elements get the same inference outcome. -/
theorem inferBackend_prefix_determined :
    (∀ (es1 es2 : List NpElem) (m : Nat),
      es1.map NpElem.kind = es2.map NpElem.kind →
      es1.take m = es2.take m →
      inferBackend (.d1 es1) (some m) = inferBackend (.d1 es2) (some m)) ∧
    (∀ (rows1 rows2 : List (List NpElem)) (m : Nat),
      rows1.map (fun r => r.map NpElem.kind)
        = rows2.map (fun r => r.map NpElem.kind) →
      (rows1.take m).map List.head? = (rows2.take m).map List.head? →
      inferBackend (.d2 rows1) (some m) = inferBackend (.d2 rows2) (some m)) := by
  constructor
  · intro es1 es2 m hk ht
    cases es1 with
    | nil =>
      cases es2 with
      | nil => rfl
      | cons e2 t2 => simp at hk
    | cons e1 t1 =>
      cases es2 with
      | nil => simp at hk
      | cons e2 t2 =>
        simp only [List.map_cons, List.cons.injEq] at hk
        show classifyElem e1 false (.d1 (e1 :: t1)) (some m)
          = classifyElem e2 false (.d1 (e2 :: t2)) (some m)
        exact classifyElem_congr e1 e2 false _ _ (some m) hk.1
          (inferLength_d1_take _ _ m ht)
  · intro rows1 rows2 m hk ht
    cases rows1 with
    | nil =>
      cases rows2 with
      | nil => rfl
      | cons r2 t2 => simp at hk
    | cons r1 t1 =>
      cases rows2 with
      | nil => simp at hk
      | cons r2 t2 =>
        simp only [List.map_cons, List.cons.injEq] at hk
        cases r1 with
        | nil =>
          cases r2 with
          | nil => rfl
          | cons e2 s2 => simp at hk
        | cons e1 s1 =>
          cases r2 with
          | nil => simp at hk
          | cons e2 s2 =>
            simp only [List.map_cons, List.cons.injEq] at hk
            show classifyElem e1 true (.d2 ((e1 :: s1) :: t1)) (some m)
              = classifyElem e2 true (.d2 ((e2 :: s2) :: t2)) (some m)
            exact classifyElem_congr e1 e2 true _ _ (some m) hk.1.1
              (inferLength_d2_take _ _ m ht)

/-- Witness: two concrete 1-D str arrays agreeing on their first 2 elements
(with `max_to_infer = 2`) get the same backend. -/
theorem inferBackend_prefix_determined_witness :
    inferBackend (.d1 [.strE 10, .strE 10, .strE 10]) (some 2)
      = inferBackend (.d1 [.strE 10, .strE 10, .strE 7]) (some 2) :=
  inferBackend_prefix_determined.1 [.strE 10, .strE 10, .strE 10]
    [.strE 10, .strE 10, .strE 7] 2 (by decide) (by decide)

/-- C7 counterexample: in the `caramel` frontend
(`src/python_bindings/caramel/__init__.py`), `_infer_backend` ignores
`max_to_infer` (it computes `validate_values` but calls `_infer_length` on
the whole list), so two value lists agreeing on the first
`max_to_infer = 2` elements are dispatched to different classes. -/
theorem caramel_inferBackend_ignores_max_cex :
    [PyElem.strV 10, .strV 10, .strV 10].take 2
      = [PyElem.strV 10, .strV 10, .strV 7].take 2 ∧
    caramelInferBackend [.strV 10, .strV 10, .strV 10] (some 2)
      = .ok .csfChar10 ∧
    caramelInferBackend [.strV 10, .strV 10, .strV 7] (some 2)
      = .ok .csfString :=
  ⟨rfl, rfl, rfl⟩

/-! ## C8: MultisetCSF directory save/load -/

theorem takeWhile_all (p : Nat → Bool) :
    ∀ l : List Nat, (∀ a ∈ l, p a = true) → l.takeWhile p = l
  | [], _ => rfl
  | x :: xs, h => by
    have hx := h x (by simp)
    simp [List.takeWhile_cons, hx,
      takeWhile_all p xs (fun a ha => h a (by simp [ha]))]

theorem takeWhile_append_stop (p : Nat → Bool) (A : List Nat) (b : Nat)
    (B : List Nat) (hA : ∀ a ∈ A, p a = true) (hb : p b = false) :
    (A ++ b :: B).takeWhile p = A := by
  induction A with
  | nil => simp [List.takeWhile_cons, hb]
  | cons x xs ih =>
    have hx := hA x (by simp)
    simp [List.takeWhile_cons, hx, ih (fun a ha => hA a (by simp [ha]))]

theorem afterLastSep_no_sep (sep : Nat) (s : CodeStr) (h : sep ∉ s) :
    afterLastSep sep s = s := by
  unfold afterLastSep
  have hall : ∀ a ∈ s.reverse, (decide (a ≠ sep)) = true := by
    intro a ha
    simp only [decide_eq_true_eq]
    exact fun hc => h (hc ▸ List.mem_reverse.mp ha)
  rw [takeWhile_all (fun x => decide (x ≠ sep)) s.reverse hall,
    List.reverse_reverse]

theorem afterLastSep_append (sep : Nat) (A B : CodeStr) (h : sep ∉ B) :
    afterLastSep sep (A ++ sep :: B) = B := by
  unfold afterLastSep
  have hrev : (A ++ sep :: B).reverse = B.reverse ++ sep :: A.reverse := by
    simp [List.reverse_append]
  have hall : ∀ a ∈ B.reverse, (decide (a ≠ sep)) = true := by
    intro a ha
    simp only [decide_eq_true_eq]
    exact fun hc => h (hc ▸ List.mem_reverse.mp ha)
  rw [hrev,
    takeWhile_append_stop (fun x => decide (x ≠ sep)) B.reverse sep A.reverse
      hall (by simp),
    List.reverse_reverse]

theorem beforeFirstSep_append (sep : Nat) (A B : CodeStr) (h : sep ∉ A) :
    beforeFirstSep sep (A ++ sep :: B) = A := by
  unfold beforeFirstSep
  have hall : ∀ a ∈ A, (decide (a ≠ sep)) = true := by
    intro a ha
    simp only [decide_eq_true_eq]
    exact fun hc => h (hc ▸ ha)
  exact takeWhile_append_stop (fun x => decide (x ≠ sep)) A sep B hall (by simp)

theorem digitsRevFuel_lt_ten :
    ∀ fuel n, ∀ d ∈ digitsRevFuel fuel n, d < 10 := by
  intro fuel
  induction fuel with
  | zero => intro n d hd; simp [digitsRevFuel] at hd
  | succ f ih =>
    intro n d hd
    unfold digitsRevFuel at hd
    by_cases h10 : n < 10
    · simp [h10] at hd; omega
    · simp [h10] at hd
      rcases hd with rfl | hd
      · omega
      · exact ih _ _ hd

theorem parseRevDigits_digitsRevFuel :
    ∀ fuel n, n < fuel → parseRevDigits (digitsRevFuel fuel n) = n := by
  intro fuel
  induction fuel with
  | zero => intro n h; omega
  | succ f ih =>
    intro n h
    unfold digitsRevFuel
    by_cases h10 : n < 10
    · simp [h10, parseRevDigits]
    · have hrec : n / 10 < f := by
        have := Nat.div_lt_self (show 0 < n by omega) (show 1 < 10 by omega)
        omega
      simp [h10, parseRevDigits, ih _ hrec]
      omega

theorem natCodes_mem (n : Nat) : ∀ c ∈ natCodes n, 48 ≤ c ∧ c < 58 := by
  intro c hc
  unfold natCodes at hc
  simp only [List.mem_map, List.mem_reverse] at hc
  obtain ⟨d, hd, rfl⟩ := hc
  have := digitsRevFuel_lt_ten (n + 1) n d hd
  omega

theorem parseCodes_natCodes (n : Nat) : parseCodes (natCodes n) = n := by
  unfold parseCodes natCodes
  rw [List.map_map]
  have hmap : ((digitsRevFuel (n + 1) n).reverse).map
      ((fun c => c - 48) ∘ fun d => d + 48) = (digitsRevFuel (n + 1) n).reverse :=
    ((List.map_congr_left (fun d _ => by simp)).trans
      (List.map_id ((digitsRevFuel (n + 1) n).reverse)))
  rw [hmap, List.reverse_reverse,
    parseRevDigits_digitsRevFuel (n + 1) n (Nat.lt_succ_self n)]

theorem mem_colName_cases (i c : Nat) (h : c ∈ colName i) :
    c ∈ ([99, 111, 108, 117, 109, 110, 95] : List Nat) ∨ (48 ≤ c ∧ c < 58) ∨
      c ∈ ([46, 99, 115, 102] : List Nat) := by
  unfold colName at h
  rcases List.mem_append.mp h with h12 | h3
  · rcases List.mem_append.mp h12 with h1 | h2
    · exact Or.inl h1
    · exact Or.inr (Or.inl (natCodes_mem i c h2))
  · exact Or.inr (Or.inr h3)

theorem colName_no47 (i : Nat) : (47 : Nat) ∉ colName i := by
  intro h
  rcases mem_colName_cases i 47 h with h | h | h
  · simp at h
  · omega
  · simp at h

theorem colName_tail_no95 (i : Nat) :
    (95 : Nat) ∉ natCodes i ++ 46 :: [99, 115, 102] := by
  intro h
  simp only [List.mem_append, List.mem_cons] at h
  rcases h with h | h
  · have := natCodes_mem i 95 h; omega
  · simp at h

theorem colName_digits_no46 (i : Nat) : (46 : Nat) ∉ natCodes i := by
  intro h
  have := natCodes_mem i 46 h; omega

theorem colName_split (i : Nat) :
    colName i = [99, 111, 108, 117, 109, 110] ++ 95 ::
      (natCodes i ++ 46 :: [99, 115, 102]) := by
  simp [colName]

theorem colKey_colName (i : Nat) : colKey (colName i) = i := by
  unfold colKey
  rw [afterLastSep_no_sep 47 _ (colName_no47 i), colName_split,
    afterLastSep_append 95 _ _ (colName_tail_no95 i)]
  have h46 : natCodes i ++ 46 :: [99, 115, 102]
      = natCodes i ++ 46 :: [99, 115, 102] := rfl
  rw [beforeFirstSep_append 46 _ _ (colName_digits_no46 i),
    parseCodes_natCodes]

theorem hasCsfSuffix_colName (i : Nat) : hasCsfSuffix (colName i) = true := by
  unfold hasCsfSuffix
  rw [decide_eq_true_eq, colName_split]
  simp [List.reverse_append]

theorem insSort_eq_self (le : α → α → Bool) :
    ∀ l : List α, l.Pairwise (fun a b => le a b = true) → insSort le l = l
  | [], _ => rfl
  | x :: xs, h => by
    rw [List.pairwise_cons] at h
    simp only [insSort]
    rw [insSort_eq_self le xs h.2]
    cases xs with
    | nil => rfl
    | cons y ys => simp [insertLe, h.1 y (by simp)]

theorem enumFrom_fst_ge (l : List α) :
    ∀ n q, q ∈ l.enumFrom n → n ≤ q.1 := by
  induction l with
  | nil => intro n q hq; simp [List.enumFrom] at hq
  | cons x xs ih =>
    intro n q hq
    simp only [List.enumFrom] at hq
    rcases List.mem_cons.mp hq with rfl | hq
    · exact le_refl n
    · exact le_trans (by omega) (ih (n + 1) q hq)

theorem pairwise_enumFrom_lt (l : List α) :
    ∀ n, (l.enumFrom n).Pairwise (fun p q => p.1 < q.1) := by
  induction l with
  | nil => intro n; simp [List.enumFrom]
  | cons x xs ih =>
    intro n
    simp only [List.enumFrom]
    rw [List.pairwise_cons]
    exact ⟨fun q hq => lt_of_lt_of_le (Nat.lt_succ_self n)
      (enumFrom_fst_ge xs (n + 1) q hq), ih (n + 1)⟩

theorem checkCols_enumFrom (csfs : List α) : ∀ n,
    checkCols n ((csfs.enumFrom n).map (fun p => (colName p.1, p.2))) = true := by
  induction csfs with
  | nil => intro n; rfl
  | cons c cs ih =>
    intro n
    simp only [List.enumFrom, List.map_cons, checkCols]
    rw [if_pos (afterLastSep_no_sep 47 _ (colName_no47 n))]
    exact ih (n + 1)

theorem msSaveDir_enumFrom (csfs : List α) :
    msSaveDir csfs = (csfs.enumFrom 0).map (fun p => (colName p.1, p.2)) := rfl

theorem msSaveDir_filter (csfs : List α) :
    (msSaveDir csfs).filter (fun p => hasCsfSuffix p.1) = msSaveDir csfs := by
  rw [List.filter_eq_self]
  intro p hp
  rw [msSaveDir_enumFrom] at hp
  simp only [List.mem_map] at hp
  obtain ⟨q, hq, rfl⟩ := hp
  exact hasCsfSuffix_colName q.1

theorem msSaveDir_sorted (csfs : List α) :
    (msSaveDir csfs).Pairwise (fun p q => numericLe p.1 q.1 = true) := by
  rw [msSaveDir_enumFrom, List.pairwise_map]
  refine (pairwise_enumFrom_lt csfs 0).imp ?_
  intro p q hpq
  unfold numericLe
  rw [colKey_colName, colKey_colName]
  exact decide_eq_true (le_of_lt hpq)

/-- C8 (amended): `MultisetCSF.save` writes exactly the files
`column_0.csf` through `column_{L-1}.csf`, and the
`python_bindings/carameldb` frontend's `MultisetCSF.load` (which sorts by
the numeric column index) reads them back in strictly increasing column
index for every `L`, recovering the columns in their original order.  (The
`python_bindings/caramel` frontend sorts filenames lexicographically and its
name assertion fails at `L = 11`; see the counterexample.) -/
theorem msSave_load_ordered {α : Type} (csfs : List α) :
    (msSaveDir csfs).map (fun p => p.1)
      = (List.range csfs.length).map colName ∧
    msLoadNumeric (msSaveDir csfs) = .ok csfs := by
  constructor
  · rw [msSaveDir_enumFrom, List.map_map]
    have h1 : ((fun p : CodeStr × α => p.1) ∘ fun p : Nat × α => (colName p.1, p.2))
        = colName ∘ (fun p : Nat × α => p.1) := rfl
    rw [h1, ← List.map_map, List.enumFrom_map_fst, List.range_eq_range']
  · unfold msLoadNumeric msLoadWith
    rw [msSaveDir_filter]
    have hsorted := insSort_eq_self (fun p q : CodeStr × α => numericLe p.1 q.1)
      (msSaveDir csfs) (msSaveDir_sorted csfs)
    rw [hsorted, msSaveDir_enumFrom, if_pos (checkCols_enumFrom csfs 0)]
    rw [List.map_map]
    have h2 : ((fun p : CodeStr × α => p.2) ∘ fun p : Nat × α => (colName p.1, p.2))
        = fun p : Nat × α => p.2 := rfl
    rw [h2, List.enumFrom_map_snd]

set_option maxHeartbeats 4000000 in
/-- C8 counterexample: at `L = 11` columns, the `python_bindings/caramel`
frontend's `MultisetCSF.load` sorts the saved filenames lexicographically
(`column_10.csf` before `column_2.csf`), so its `assert` fails with
`AssertionError` instead of reading the columns back. -/
theorem msLoadLex_eleven_cols_cex :
    msLoadLex (msSaveDir [0, 1, 2, 3, 4, 5, 6, 7, 8, 9, 10])
      = .error .assertionError := by decide

/-! ## Core solver verification: bitstring algebra -/

theorem bxor_length (a b : Bits) : (bxor a b).length = min a.length b.length := by
  simp [bxor]

theorem bxor_assoc (a : Bits) : ∀ b c : Bits,
    bxor (bxor a b) c = bxor a (bxor b c) := by
  induction a with
  | nil => intro b c; rfl
  | cons x xs ih =>
    intro b c
    cases b with
    | nil => rfl
    | cons y ys =>
      cases c with
      | nil => rfl
      | cons z zs =>
        show xor (xor x y) z :: bxor (bxor xs ys) zs
          = xor x (xor y z) :: bxor xs (bxor ys zs)
        rw [ih ys zs, Bool.xor_assoc]

theorem bxor_comm (a : Bits) : ∀ b : Bits, bxor a b = bxor b a := by
  induction a with
  | nil => intro b; cases b <;> rfl
  | cons x xs ih =>
    intro b
    cases b with
    | nil => rfl
    | cons y ys =>
      show xor x y :: bxor xs ys = xor y x :: bxor ys xs
      rw [ih ys, Bool.xor_comm]

theorem bxor_rightcomm (z a b : Bits) :
    bxor (bxor z a) b = bxor (bxor z b) a := by
  rw [bxor_assoc, bxor_assoc, bxor_comm a b]

theorem bxor_zero_left (b : Bits) : bxor (List.replicate b.length false) b = b := by
  induction b with
  | nil => rfl
  | cons x xs ih => simp [bxor, List.replicate] at ih ⊢; exact ih

theorem bxor_zero_right (a : Bits) : bxor a (List.replicate a.length false) = a := by
  rw [bxor_comm]; exact bxor_zero_left a

theorem bxor_cancel_left (a : Bits) : ∀ b : Bits, a.length = b.length →
    bxor (bxor a b) a = b := by
  induction a with
  | nil => intro b hb; cases b with | nil => rfl | cons => simp at hb
  | cons x xs ih =>
    intro b hb
    cases b with
    | nil => simp at hb
    | cons y ys =>
      simp only [bxor, List.zipWith_cons_cons, List.cons.injEq]
      constructor
      · cases x <;> cases y <;> rfl
      · exact ih ys (by simpa using hb)

/-! ## Core solver verification: `xorRow` -/

theorem bxor_zeroBits_left (L : Nat) (b : Bits) (hb : b.length = L) :
    bxor (zeroBits L) b = b := by
  subst hb; exact bxor_zero_left b

theorem bxor_zeroBits_right (L : Nat) (a : Bits) (ha : a.length = L) :
    bxor a (zeroBits L) = a := by
  subst ha; exact bxor_zero_right a

theorem getD_slice_length (L : Nat) (x : List Bits)
    (hx : ∀ s ∈ x, s.length = L) (v : Nat) :
    (x.getD v (zeroBits L)).length = L := by
  rw [List.getD_eq_getElem?_getD]
  cases h : x[v]? with
  | none => simp [zeroBits]
  | some s =>
    obtain ⟨hlt, rfl⟩ := List.getElem?_eq_some_iff.mp h
    simpa using hx _ (List.getElem_mem hlt)

theorem xorRow_cons (L : Nat) (x : List Bits) (hx : ∀ s ∈ x, s.length = L)
    (w : Nat) (rest : List Nat) :
    xorRow L x (w :: rest)
      = bxor (x.getD w (zeroBits L)) (xorRow L x rest) := by
  have hfold : ∀ (vars : List Nat) (acc : Bits), acc.length = L →
      vars.foldl (fun a v => bxor a (x.getD v (zeroBits L))) acc
        = bxor acc (xorRow L x vars) := by
    intro vars
    induction vars with
    | nil =>
      intro acc hacc
      show acc = bxor acc (zeroBits L)
      exact (bxor_zeroBits_right L acc hacc).symm
    | cons u us ih =>
      intro acc hacc
      have hu := getD_slice_length L x hx u
      show List.foldl _ (bxor acc (x.getD u (zeroBits L))) us = _
      rw [ih (bxor acc (x.getD u (zeroBits L)))
        (by rw [bxor_length, hacc, hu]; simp)]
      show _ = bxor acc (List.foldl _ (bxor (zeroBits L) (x.getD u (zeroBits L))) us)
      rw [bxor_zeroBits_left L _ hu, ih _ hu]
      exact bxor_assoc acc _ _
  have hw := getD_slice_length L x hx w
  show List.foldl _ (bxor (zeroBits L) (x.getD w (zeroBits L))) rest = _
  rw [bxor_zeroBits_left L _ hw, hfold rest _ hw]

theorem xorRow_length (L : Nat) (x : List Bits) (hx : ∀ s ∈ x, s.length = L) :
    ∀ vars, (xorRow L x vars).length = L := by
  intro vars
  induction vars with
  | nil => simp [xorRow, zeroBits]
  | cons w rest ih =>
    rw [xorRow_cons L x hx, bxor_length, ih, getD_slice_length L x hx]
    simp

theorem xorRow_perm (L : Nat) (x : List Bits) {v1 v2 : List Nat}
    (hp : v1.Perm v2) : xorRow L x v1 = xorRow L x v2 :=
  hp.foldl_eq' (fun a _ b _ z => bxor_rightcomm z
    (x.getD a (zeroBits L)) (x.getD b (zeroBits L))) (zeroBits L)

theorem getD_set_ne (x : List Bits) (v w : Nat) (sl d : Bits) (h : v ≠ w) :
    (x.set v sl).getD w d = x.getD w d := by
  simp [List.getD_eq_getElem?_getD, List.getElem?_set_ne h]

theorem xorRow_set_ne (L : Nat) (x : List Bits) (v : Nat) (sl : Bits)
    (hxlen : ∀ s ∈ x, s.length = L) (hsl : sl.length = L) :
    ∀ vars, v ∉ vars → xorRow L (x.set v sl) vars = xorRow L x vars := by
  have hx2 : ∀ s ∈ x.set v sl, s.length = L := by
    intro s hs
    rcases List.mem_or_eq_of_mem_set hs with hs2 | rfl
    · exact hxlen s hs2
    · exact hsl
  intro vars hv
  induction vars with
  | nil => rfl
  | cons w rest ih =>
    rw [xorRow_cons L _ hx2, xorRow_cons L x hxlen,
      getD_set_ne x v w sl _ (fun hc => hv (hc ▸ List.mem_cons_self w rest)),
      ih (fun hc => hv (List.mem_cons_of_mem w hc))]

/-! ## Core solver verification: back-substitution -/

theorem backSub_length (L : Nat) :
    ∀ (stack : List (Row × Nat)) (x : List Bits),
      (backSub L stack x).length = x.length := by
  intro stack
  induction stack with
  | nil => intro x; rfl
  | cons rv t ih =>
    intro x
    show ((backSub L t x).set rv.2 _).length = x.length
    rw [List.length_set, ih x]

theorem backSub_slicelen (L : Nat) :
    ∀ (stack : List (Row × Nat)) (x : List Bits),
      (∀ s ∈ x, s.length = L) → (∀ p ∈ stack, p.1.rhs.length = L) →
      ∀ s ∈ backSub L stack x, s.length = L := by
  intro stack
  induction stack with
  | nil => intro x hx _; exact hx
  | cons rv t ih =>
    intro x hx hr s hs
    have hxt := ih x hx (fun p hp => hr p (List.mem_cons_of_mem rv hp))
    have hstep : backSub L (rv :: t) x
        = (backSub L t x).set rv.2
          (bxor (xorRow L (backSub L t x) (rv.1.vars.erase rv.2)) rv.1.rhs) := rfl
    rw [hstep] at hs
    rcases List.mem_or_eq_of_mem_set hs with hs2 | rfl
    · exact hxt s hs2
    · rw [bxor_length, xorRow_length L _ hxt, hr rv (List.mem_cons_self rv t)]
      simp

theorem backSub_correct (L : Nat) :
    ∀ (stack : List (Row × Nat)) (x : List Bits),
      (∀ s ∈ x, s.length = L) →
      stack.Pairwise (fun a b => a.2 ∉ b.1.vars) →
      (∀ p ∈ stack, p.2 ∈ p.1.vars ∧ p.1.vars.count p.2 = 1 ∧
        p.2 < x.length ∧ p.1.rhs.length = L) →
      ∀ p ∈ stack, xorRow L (backSub L stack x) p.1.vars = p.1.rhs := by
  intro stack
  induction stack with
  | nil => intro x _ _ _ p hp; cases hp
  | cons rv t ih =>
    intro x hx hpw hprops p hp
    rw [List.pairwise_cons] at hpw
    have hxt := backSub_slicelen L t x hx
      (fun q hq => (hprops q (List.mem_cons_of_mem rv hq)).2.2.2)
    have hrv := hprops rv (List.mem_cons_self rv t)
    have hnewlen : (bxor (xorRow L (backSub L t x) (rv.1.vars.erase rv.2))
        rv.1.rhs).length = L := by
      rw [bxor_length, xorRow_length L _ hxt, hrv.2.2.2]; simp
    have hstep : backSub L (rv :: t) x
        = (backSub L t x).set rv.2
          (bxor (xorRow L (backSub L t x) (rv.1.vars.erase rv.2)) rv.1.rhs) := rfl
    rcases List.mem_cons.mp hp with hpeq | hpt
    · subst hpeq
      have hxset : ∀ s ∈ (backSub L t x).set p.2
          (bxor (xorRow L (backSub L t x) (p.1.vars.erase p.2)) p.1.rhs),
          s.length = L := by
        intro s hs
        rcases List.mem_or_eq_of_mem_set hs with hs2 | rfl
        · exact hxt s hs2
        · exact hnewlen
      have hperm : p.1.vars.Perm (p.2 :: p.1.vars.erase p.2) :=
        List.perm_cons_erase hrv.1
      have hv_not_erase : p.2 ∉ p.1.vars.erase p.2 := by
        intro hc
        have h1 := List.count_erase_self p.2 p.1.vars
        have h2 : 0 < (p.1.vars.erase p.2).count p.2 :=
          List.count_pos_iff.mpr hc
        have h3 := hrv.2.1
        omega
      have hvlt : p.2 < (backSub L t x).length := by
        rw [backSub_length]; exact hrv.2.2.1
      rw [hstep, xorRow_perm L _ hperm, xorRow_cons L _ hxset,
        xorRow_set_ne L _ _ _ hxt hnewlen _ hv_not_erase,
        List.getD_eq_getElem?_getD, List.getElem?_set_self hvlt,
        Option.getD_some]
      exact bxor_cancel_left _ _ (by rw [xorRow_length L _ hxt, hrv.2.2.2])
    · have hnotin := hpw.1 p hpt
      rw [hstep, xorRow_set_ne L _ _ _ hxt hnewlen _ hnotin]
      exact ih x hx hpw.2
        (fun q hq => hprops q (List.mem_cons_of_mem rv hq)) p hpt

/-! ## Core solver verification: peeling -/

theorem degOneVar_spec (rows : List Row) (r : Row) (v : Nat)
    (h : degOneVar rows r = some v) :
    v ∈ r.vars ∧ r.vars.count v = 1 ∧
      rows.countP (fun r2 => decide (v ∈ r2.vars)) = 1 := by
  have hmem := List.mem_of_find?_eq_some h
  have hp := List.find?_some h
  simp only [Bool.and_eq_true, decide_eq_true_eq] at hp
  exact ⟨hmem, hp.1, hp.2⟩

theorem findPeelable_spec (rows : List Row) :
    ∀ sub r v, findPeelable rows sub = some (r, v) →
      r ∈ sub ∧ degOneVar rows r = some v := by
  intro sub
  induction sub with
  | nil => intro r v h; cases h
  | cons a t ih =>
    intro r v h
    unfold findPeelable at h
    cases hd : degOneVar rows a with
    | some w =>
      rw [hd] at h
      cases h
      exact ⟨List.mem_cons_self a t, hd⟩
    | none =>
      rw [hd] at h
      obtain ⟨h1, h2⟩ := ih r v h
      exact ⟨List.mem_cons_of_mem a h1, h2⟩

theorem not_mem_vars_of_countP_one (rows : List Row) (r : Row) (v : Nat)
    (hr : r ∈ rows) (hv : v ∈ r.vars)
    (hcount : rows.countP (fun r2 => decide (v ∈ r2.vars)) = 1) :
    ∀ r2 ∈ rows.erase r, v ∉ r2.vars := by
  have hperm : rows.Perm (r :: rows.erase r) := List.perm_cons_erase hr
  have hsplit : rows.countP (fun r2 => decide (v ∈ r2.vars))
      = (rows.erase r).countP (fun r2 => decide (v ∈ r2.vars)) + 1 := by
    rw [hperm.countP_eq, List.countP_cons]
    simp [hv]
  have hzero : (rows.erase r).countP (fun r2 => decide (v ∈ r2.vars)) = 0 := by
    omega
  intro r2 h2 hvin
  have := List.countP_eq_zero.mp hzero r2 h2
  simp [hvin] at this

theorem peelList_spec :
    ∀ (fuel : Nat) (rows : List Row) (stack : List (Row × Nat)),
      peelList fuel rows = some stack →
      rows.Perm (stack.map Prod.fst) ∧
      stack.Pairwise (fun a b => a.2 ∉ b.1.vars) ∧
      ∀ p ∈ stack, p.2 ∈ p.1.vars ∧ p.1.vars.count p.2 = 1 := by
  intro fuel
  induction fuel with
  | zero =>
    intro rows stack h
    cases rows with
    | nil =>
      cases h
      exact ⟨List.Perm.refl [], List.Pairwise.nil, fun p hp => absurd hp
        (List.not_mem_nil p)⟩
    | cons a t => cases h
  | succ f ih =>
    intro rows stack h
    cases rows with
    | nil =>
      cases h
      exact ⟨List.Perm.refl [], List.Pairwise.nil, fun p hp => absurd hp
        (List.not_mem_nil p)⟩
    | cons a t =>
      unfold peelList at h
      split at h
      · cases h
      · rename_i r v hf
        cases hrec : peelList f ((a :: t).erase r) with
        | none => rw [hrec] at h; cases h
        | some st2 =>
          rw [hrec] at h
          simp only [Option.map_some'] at h
          cases h
          obtain ⟨hrmem, hdeg⟩ := findPeelable_spec (a :: t) (a :: t) r v hf
          obtain ⟨hvmem, hcnt, hcp⟩ := degOneVar_spec _ _ _ hdeg
          obtain ⟨hperm2, hpw2, hprops2⟩ := ih _ _ hrec
          have hnotin := not_mem_vars_of_countP_one (a :: t) r v hrmem hvmem hcp
          refine ⟨?_, ?_, ?_⟩
          · exact (List.perm_cons_erase hrmem).trans (hperm2.cons r)
          · rw [List.pairwise_cons]
            refine ⟨fun q hq => ?_, hpw2⟩
            have hq1 : q.1 ∈ (a :: t).erase r :=
              hperm2.mem_iff.mpr (List.mem_map_of_mem Prod.fst hq)
            exact hnotin q.1 hq1
          · intro p hp
            rcases List.mem_cons.mp hp with hpeq | hpt
            · subst hpeq
              exact ⟨hvmem, hcnt⟩
            · exact hprops2 p hpt

theorem solveSystem_correct (L m : Nat) (rows : List Row) (x : List Bits)
    (hsol : solveSystem L m rows = some x)
    (hvars : ∀ r ∈ rows, ∀ v ∈ r.vars, v < m)
    (hrhs : ∀ r ∈ rows, r.rhs.length = L) :
    (∀ r ∈ rows, xorRow L x r.vars = r.rhs) ∧ x.length = m ∧
      ∀ s ∈ x, s.length = L := by
  unfold solveSystem at hsol
  cases hp : peelList rows.length rows with
  | none => rw [hp] at hsol; cases hsol
  | some stack =>
    rw [hp] at hsol
    simp only [Option.map_some'] at hsol
    cases hsol
    obtain ⟨hperm, hpw, hprops⟩ := peelList_spec _ _ _ hp
    have hx0 : ∀ s ∈ List.replicate m (zeroBits L), s.length = L := by
      intro s hs; rw [List.eq_of_mem_replicate hs]; simp [zeroBits]
    have hmemrows : ∀ p ∈ stack, p.1 ∈ rows := by
      intro p hp2
      exact hperm.mem_iff.mpr (List.mem_map_of_mem Prod.fst hp2)
    have hfull : ∀ p ∈ stack, p.2 ∈ p.1.vars ∧ p.1.vars.count p.2 = 1 ∧
        p.2 < (List.replicate m (zeroBits L)).length ∧ p.1.rhs.length = L := by
      intro p hp2
      obtain ⟨h1, h2⟩ := hprops p hp2
      refine ⟨h1, h2, ?_, hrhs p.1 (hmemrows p hp2)⟩
      rw [List.length_replicate]
      exact hvars p.1 (hmemrows p hp2) p.2 h1
    have hcorrect := backSub_correct L stack _ hx0 hpw hfull
    refine ⟨?_, ?_, ?_⟩
    · intro r hr
      obtain ⟨p, hp2, rfl⟩ := List.mem_map.mp (hperm.mem_iff.mp hr)
      exact hcorrect p hp2
    · rw [backSub_length, List.length_replicate]
    · exact backSub_slicelen L stack _ hx0 (fun p hp2 => (hfull p hp2).2.2.2)

/-! ## Core codec verification -/

theorem decodeWalk_leaf (s : Nat) (bs : Bits) :
    decodeWalk (.leaf s) bs = some (s, bs) := by
  cases bs <;> rfl

theorem decodeWalk_codeOf (t : HTree) (v : Nat) :
    ∀ c, codeOf t v = some c → ∀ rest, decodeWalk t (c ++ rest) = some (v, rest) := by
  induction t with
  | leaf s =>
    intro c hc rest
    unfold codeOf at hc
    by_cases hsv : s = v
    · rw [if_pos hsv] at hc; cases hc; subst hsv
      exact decodeWalk_leaf s rest
    · rw [if_neg hsv] at hc; cases hc
  | node l r ihl ihr =>
    intro c hc rest
    unfold codeOf at hc
    cases hl : codeOf l v with
    | some cl =>
      rw [hl] at hc
      cases hc
      exact ihl cl hl rest
    | none =>
      rw [hl] at hc
      cases hr2 : codeOf r v with
      | some cr =>
        rw [hr2] at hc
        simp only [Option.map_some'] at hc
        cases hc
        exact ihr cr hr2 rest
      | none => rw [hr2] at hc; cases hc

theorem codeOf_isSome_of_mem (t : HTree) (v : Nat) :
    v ∈ t.syms → ∃ c, codeOf t v = some c := by
  induction t with
  | leaf s =>
    intro h
    simp only [HTree.syms, List.mem_singleton] at h
    exact ⟨[], by simp [codeOf, h]⟩
  | node l r ihl ihr =>
    intro h
    simp only [HTree.syms, List.mem_append] at h
    unfold codeOf
    rcases h with h | h
    · obtain ⟨c, hc⟩ := ihl h
      exact ⟨false :: c, by rw [hc]⟩
    · cases hl : codeOf l v with
      | some cl => exact ⟨false :: cl, rfl⟩
      | none =>
        obtain ⟨c, hc⟩ := ihr h
        exact ⟨true :: c, by rw [hc]; rfl⟩

theorem codeOf_length (t : HTree) (v : Nat) :
    ∀ c, codeOf t v = some c → c.length ≤ t.height := by
  induction t with
  | leaf s =>
    intro c hc
    unfold codeOf at hc
    by_cases hsv : s = v
    · rw [if_pos hsv] at hc; cases hc; simp [HTree.height]
    · rw [if_neg hsv] at hc; cases hc
  | node l r ihl ihr =>
    intro c hc
    unfold codeOf at hc
    cases hl : codeOf l v with
    | some cl =>
      rw [hl] at hc
      cases hc
      have := ihl cl hl
      simp only [HTree.height, List.length_cons]
      omega
    | none =>
      rw [hl] at hc
      cases hr2 : codeOf r v with
      | some cr =>
        rw [hr2] at hc
        simp only [Option.map_some'] at hc
        cases hc
        have := ihr cr hr2
        simp only [HTree.height, List.length_cons]
        omega
      | none => rw [hr2] at hc; cases hc

theorem insertLe_perm (le : α → α → Bool) (x : α) :
    ∀ l : List α, (insertLe le x l).Perm (x :: l)
  | [] => List.Perm.refl _
  | y :: ys => by
    unfold insertLe
    by_cases h : le x y = true
    · rw [if_pos h]
    · rw [if_neg h]
      exact ((insertLe_perm le x ys).cons y).trans (List.Perm.swap x y ys)

theorem insSort_perm (le : α → α → Bool) : ∀ l : List α, (insSort le l).Perm l
  | [] => List.Perm.refl _
  | x :: xs =>
    (insertLe_perm le x (insSort le xs)).trans ((insSort_perm le xs).cons x)

theorem huffStep_syms (l : List (HTree × Nat)) (v : Nat)
    (h : ∃ p ∈ l, v ∈ p.1.syms) : ∃ p ∈ huffStep l, v ∈ p.1.syms := by
  unfold huffStep
  have hperm := insSort_perm (fun a b : HTree × Nat => a.2 ≤ b.2) l
  have h2 : ∃ p ∈ insSort (fun a b : HTree × Nat => a.2 ≤ b.2) l,
      v ∈ p.1.syms := by
    obtain ⟨p, hp, hv⟩ := h
    exact ⟨p, hperm.mem_iff.mpr hp, hv⟩
  split
  · rename_i t1 w1 t2 w2 rest heq
    rw [heq] at h2
    obtain ⟨p, hp, hv⟩ := h2
    rcases List.mem_cons.mp hp with hpeq | hp2
    · subst hpeq
      exact ⟨(HTree.node t1 t2, w1 + w2), List.mem_cons_self _ _, by
        simp only [HTree.syms, List.mem_append]; exact Or.inl hv⟩
    · rcases List.mem_cons.mp hp2 with hpeq | hp3
      · subst hpeq
        exact ⟨(HTree.node t1 t2, w1 + w2), List.mem_cons_self _ _, by
          simp only [HTree.syms, List.mem_append]; exact Or.inr hv⟩
      · exact ⟨p, List.mem_cons_of_mem _ hp3, hv⟩
  · exact h2

theorem huffLoop_syms : ∀ (fuel : Nat) (l : List (HTree × Nat)) (t : HTree)
    (v : Nat), huffLoop fuel l = some t →
    (∃ p ∈ l, v ∈ p.1.syms) → v ∈ t.syms := by
  intro fuel
  induction fuel with
  | zero =>
    intro l t v h hex
    match l, h with
    | [(t2, w)], h =>
      cases h
      obtain ⟨p, hp, hv⟩ := hex
      rw [List.mem_singleton.mp hp] at hv
      exact hv
  | succ f ih =>
    intro l t v h hex
    match l, h with
    | [(t2, w)], h =>
      cases h
      obtain ⟨p, hp, hv⟩ := hex
      rw [List.mem_singleton.mp hp] at hv
      exact hv
    | [], h => cases h
    | a :: b :: rest, h =>
      exact ih (huffStep (a :: b :: rest)) t v h
        (huffStep_syms (a :: b :: rest) v hex)

theorem huffStep_shrinks (l : List (HTree × Nat)) (h2 : 2 ≤ l.length) :
    (huffStep l).length + 1 = l.length := by
  unfold huffStep
  have hlen := (insSort_perm (fun a b : HTree × Nat => a.2 ≤ b.2) l).length_eq
  split
  · rename_i t1 w1 t2 w2 rest heq
    rw [heq] at hlen
    simp only [List.length_cons] at hlen ⊢
    omega
  · rename_i hno
    cases hs : insSort (fun a b : HTree × Nat => a.2 ≤ b.2) l with
    | nil =>
      exfalso
      rw [hs] at hlen
      simp at hlen
      omega
    | cons a t2 =>
      cases t2 with
      | nil =>
        exfalso
        rw [hs] at hlen
        simp at hlen
        omega
      | cons b rest =>
        obtain ⟨t1, w1⟩ := a
        obtain ⟨t2, w2⟩ := b
        exact (hno t1 w1 t2 w2 rest hs).elim

theorem huffLoop_total : ∀ (fuel : Nat) (l : List (HTree × Nat)),
    l ≠ [] → l.length ≤ fuel + 1 → ∃ t, huffLoop fuel l = some t := by
  intro fuel
  induction fuel with
  | zero =>
    intro l hne hlen
    match l, hne, hlen with
    | [p], _, _ =>
      obtain ⟨t, w⟩ := p
      exact ⟨t, rfl⟩
  | succ f ih =>
    intro l hne hlen
    match l, hne, hlen with
    | [p], _, _ =>
      obtain ⟨t, w⟩ := p
      exact ⟨t, rfl⟩
    | a :: b :: rest, _, hlen =>
      have h2 : 2 ≤ (a :: b :: rest).length := by simp
      have hshr := huffStep_shrinks (a :: b :: rest) h2
      have hne2 : huffStep (a :: b :: rest) ≠ [] := by
        intro hc
        rw [hc] at hshr
        simp at hshr
      have hlen2 : (huffStep (a :: b :: rest)).length ≤ f + 1 := by
        simp only [List.length_cons] at hlen hshr
        omega
      obtain ⟨t, ht⟩ := ih (huffStep (a :: b :: rest)) hne2 hlen2
      exact ⟨t, ht⟩

theorem freqStep_fst (acc : List (Nat × Nat)) (w v : Nat)
    (h : ∃ p ∈ acc, p.1 = v) : ∃ p ∈ freqStep acc w, p.1 = v := by
  unfold freqStep
  obtain ⟨p, hp, hfst⟩ := h
  split
  · refine ⟨if p.1 = w then (p.1, p.2 + 1) else p, List.mem_map_of_mem _ hp, ?_⟩
    split <;> simp [hfst]
  · exact ⟨p, List.mem_append_left _ hp, hfst⟩

theorem freqStep_new (acc : List (Nat × Nat)) (w : Nat) :
    ∃ p ∈ freqStep acc w, p.1 = w := by
  unfold freqStep
  split
  · rename_i hany
    obtain ⟨x, hx, hfst⟩ := List.any_eq_true.mp hany
    simp only [decide_eq_true_eq] at hfst
    refine ⟨if x.1 = w then (x.1, x.2 + 1) else x, List.mem_map_of_mem _ hx, ?_⟩
    split <;> simp [hfst]
  · exact ⟨(w, 1), List.mem_append_right _ (List.mem_singleton_self _), rfl⟩

theorem freqTable_keys (vals : List Nat) :
    ∀ v ∈ vals, ∃ p ∈ freqTable vals, p.1 = v := by
  have haux : ∀ (l : List Nat) (acc : List (Nat × Nat)) (v : Nat),
      ((∃ p ∈ acc, p.1 = v) ∨ v ∈ l) →
      ∃ p ∈ l.foldl freqStep acc, p.1 = v := by
    intro l
    induction l with
    | nil =>
      intro acc v h
      rcases h with h | h
      · exact h
      · cases h
    | cons w rest ih =>
      intro acc v h
      show ∃ p ∈ rest.foldl freqStep (freqStep acc w), p.1 = v
      rcases h with h | h
      · exact ih _ v (Or.inl (freqStep_fst acc w v h))
      · rcases List.mem_cons.mp h with hvw | h2
        · subst hvw
          exact ih _ v (Or.inl (freqStep_new acc v))
        · exact ih _ v (Or.inr h2)
  intro v hv
  exact haux vals [] v (Or.inr hv)

theorem huffBuild_syms (vals : List Nat) (t : HTree)
    (h : huffBuild vals = some t) : ∀ v ∈ vals, v ∈ t.syms := by
  intro v hv
  unfold huffBuild at h
  obtain ⟨p, hp, hfst⟩ := freqTable_keys vals v hv
  apply huffLoop_syms _ _ _ v h
  exact ⟨(HTree.leaf p.1, p.2), List.mem_map_of_mem _ hp, by
    rw [hfst]; simp [HTree.syms]⟩

theorem huffBuild_total (vals : List Nat) (hne : vals ≠ []) :
    ∃ t, huffBuild vals = some t := by
  unfold huffBuild
  have hfne : freqTable vals ≠ [] := by
    match vals, hne with
    | w :: rest, _ =>
      obtain ⟨p, hp, _⟩ := freqTable_keys (w :: rest) w (List.mem_cons_self w rest)
      exact fun hc => by rw [hc] at hp; cases hp
  apply huffLoop_total
  · intro hc
    exact hfne (List.map_eq_nil_iff.mp hc)
  · rw [List.length_map]
    omega

/-! ## Core bitstring extraction -/

theorem readBits_append (A B : Bits) (i w : Nat) :
    readBits (A ++ B) (A.length + i) w = readBits B i w := by
  unfold readBits
  rw [List.drop_append]

theorem readBits_take (B C : Bits) (j w : Nat) (hjw : j + w ≤ B.length) :
    readBits (B ++ C) j w = readBits B j w := by
  unfold readBits
  rw [List.drop_append_eq_append_drop,
    Nat.sub_eq_zero_of_le (by omega : j ≤ B.length), List.drop_zero,
    List.take_append_of_le_length (by rw [List.length_drop]; omega)]

theorem readBits_flatten_slice (L : Nat) :
    ∀ (sol : List Bits) (v : Nat), (∀ s ∈ sol, s.length = L) →
      v < sol.length →
      readBits sol.flatten (v * L) L = sol.getD v (zeroBits L) := by
  intro sol
  induction sol with
  | nil => intro v _ hv; cases hv
  | cons s0 rest ih =>
    intro v hlen hv
    cases v with
    | zero =>
      rw [Nat.zero_mul]
      simp only [List.flatten_cons, List.getD_cons_zero]
      unfold readBits
      rw [List.drop_zero, List.take_append_of_le_length
        (le_of_eq (hlen s0 (List.mem_cons_self s0 rest)).symm),
        List.take_of_length_le (le_of_eq (hlen s0 (List.mem_cons_self s0 rest)))]
    | succ v2 =>
      simp only [List.flatten_cons, List.getD_cons_succ]
      have hs0 : s0.length = L := hlen s0 (List.mem_cons_self s0 rest)
      have harith : (v2 + 1) * L = s0.length + v2 * L := by
        rw [hs0]; ring
      rw [harith, readBits_append]
      exact ih v2 (fun s hs => hlen s (List.mem_cons_of_mem s0 hs))
        (by simpa using hv)

/-! ## Core assembly lemmas -/

theorem metasOf_get :
    ∀ (solved : List BucketSolved) (off i : Nat) (b : BucketSolved),
      solved[i]? = some b →
      (metasOf off solved)[i]?
        = some ⟨b.seed, b.seg, b.L, off + prefixLen solved i, b.tree⟩ := by
  intro solved
  induction solved with
  | nil => intro off i b h; simp at h
  | cons s rest ih =>
    intro off i b h
    cases i with
    | zero =>
      simp only [List.getElem?_cons_zero, Option.some.injEq] at h
      subst h
      rw [show off + prefixLen (s :: rest) 0 = off by simp [prefixLen]]
      simp only [metasOf, List.getElem?_cons_zero]
    | succ i2 =>
      simp only [List.getElem?_cons_succ] at h
      have hp : prefixLen (s :: rest) (i2 + 1)
          = s.sol.flatten.length + prefixLen rest i2 := by
        simp [prefixLen, List.take_succ_cons]
      simp only [metasOf, List.getElem?_cons_succ]
      rw [ih _ i2 b h, hp]
      have harith : off + s.sol.flatten.length + prefixLen rest i2
          = off + (s.sol.flatten.length + prefixLen rest i2) := by omega
      rw [harith]

theorem globalS_read :
    ∀ (solved : List BucketSolved) (i : Nat) (b : BucketSolved),
      solved[i]? = some b → ∀ j w, j + w ≤ b.sol.flatten.length →
      readBits (globalS solved) (prefixLen solved i + j) w
        = readBits b.sol.flatten j w := by
  intro solved
  induction solved with
  | nil => intro i b h; simp at h
  | cons s rest ih =>
    intro i b h j w hjw
    cases i with
    | zero =>
      simp only [List.getElem?_cons_zero, Option.some.injEq] at h
      subst h
      have hp : prefixLen (s :: rest) 0 = 0 := rfl
      rw [hp, Nat.zero_add]
      show readBits (s.sol.flatten ++ globalS rest) j w = _
      rw [readBits_take _ _ j w hjw]
    | succ i2 =>
      simp only [List.getElem?_cons_succ] at h
      have hp : prefixLen (s :: rest) (i2 + 1)
          = s.sol.flatten.length + prefixLen rest i2 := by
        simp [prefixLen, List.take_succ_cons]
      rw [hp, Nat.add_assoc]
      show readBits (s.sol.flatten ++ globalS rest)
        (s.sol.flatten.length + (prefixLen rest i2 + j)) w = _
      rw [readBits_append]
      exact ih i2 b h j w hjw

theorem exMap_get (f : α → Except ε β) :
    ∀ (l : List α) (out : List β), exMap f l = .ok out →
      l.length = out.length ∧
      ∀ (i : Nat) (a : α), l[i]? = some a →
        ∃ b, out[i]? = some b ∧ f a = .ok b := by
  intro l
  induction l with
  | nil =>
    intro out h
    cases h
    exact ⟨rfl, fun i a ha => by simp at ha⟩
  | cons x xs ih =>
    intro out h
    unfold exMap at h
    cases hx : f x with
    | error e => rw [hx] at h; cases h
    | ok b0 =>
      rw [hx] at h
      rw [exceptBind_ok] at h
      cases hrec : exMap f xs with
      | error e => rw [hrec] at h; cases h
      | ok bs =>
        rw [hrec] at h
        rw [exceptBind_ok] at h
        cases h
        obtain ⟨hlen, hget⟩ := ih bs hrec
        refine ⟨by simp [hlen], ?_⟩
        intro i a ha
        cases i with
        | zero =>
          simp only [List.getElem?_cons_zero, Option.some.injEq] at ha
          subst ha
          exact ⟨b0, by simp, hx⟩
        | succ i2 =>
          simp only [List.getElem?_cons_succ] at ha ⊢
          exact hget i2 a ha

theorem trySeeds_mem (f : Nat → Option β) :
    ∀ (seeds : List Nat) (b : β), trySeeds f seeds = .ok b →
      ∃ s ∈ seeds, f s = some b := by
  intro seeds
  induction seeds with
  | nil => intro b h; cases h
  | cons s rest ih =>
    intro b h
    unfold trySeeds at h
    cases hs : f s with
    | some b2 =>
      rw [hs] at h
      cases h
      exact ⟨s, List.mem_cons_self s rest, hs⟩
    | none =>
      rw [hs] at h
      obtain ⟨s2, hs2, hf⟩ := ih b h
      exact ⟨s2, List.mem_cons_of_mem s hs2, hf⟩

theorem segOf_pos (n : Nat) : 1 ≤ segOf n := le_max_left 1 _

theorem segXor_pos (n : Nat) : 1 ≤ segXor n := le_max_left 1 _

theorem segFuse_pos (n : Nat) : 1 ≤ segFuse n := le_max_left 1 _

theorem edgeVars_lt (seg h : Nat) (hseg : 1 ≤ seg) :
    ∀ v ∈ edgeVars seg h, v < 3 * seg := by
  intro v hv
  unfold edgeVars at hv
  simp only [List.mem_cons, List.not_mem_nil, or_false] at hv
  have h0 : lane0 h % seg < seg := Nat.mod_lt _ hseg
  have h1 : lane1 h % seg < seg := Nat.mod_lt _ hseg
  have h2 : lane2 h % seg < seg := Nat.mod_lt _ hseg
  rcases hv with rfl | rfl | rfl <;> omega

theorem edgeVars4_lt (seg h : Nat) (hseg : 1 ≤ seg) :
    ∀ v ∈ edgeVars4 seg h, v < 4 * seg := by
  intro v hv
  unfold edgeVars4 at hv
  simp only [List.mem_cons, List.not_mem_nil, or_false] at hv
  have h0 : lane0 h % seg < seg := Nat.mod_lt _ hseg
  have h1 : lane1 h % seg < seg := Nat.mod_lt _ hseg
  have h2 : lane2 h % seg < seg := Nat.mod_lt _ hseg
  have h3 : lane3 h % seg < seg := Nat.mod_lt _ hseg
  rcases hv with rfl | rfl | rfl | rfl <;> omega

theorem padTo_length (L : Nat) (c : Bits) (h : c.length ≤ L) :
    (padTo L c).length = L := by
  unfold padTo
  rw [List.length_append, List.length_replicate]
  omega

theorem natToBits_length : ∀ (w n : Nat), (natToBits w n).length = w := by
  intro w
  induction w with
  | zero => intro n; rfl
  | succ w2 ih => intro n; simp [natToBits, ih]

theorem buildBucket_spec (hash : HashFn) (seeds : List Nat)
    (pairs : List (Key × Nat)) (bs : BucketSolved) (hne : pairs ≠ [])
    (hok : buildBucket hash seeds pairs = .ok bs) :
    ∃ tree sol, huffBuild (pairs.map (·.2)) = some tree ∧
      bs = ⟨bs.seed, segOf pairs.length, tree.height, some tree, sol⟩ ∧
      solveSystem tree.height (3 * segOf pairs.length)
        (pairs.map (rowFor hash bs.seed (segOf pairs.length) tree.height tree))
        = some sol := by
  unfold buildBucket at hok
  have hvne : pairs.map (fun p => p.2) ≠ [] := by
    intro hc; exact hne (List.map_eq_nil_iff.mp hc)
  obtain ⟨tree, htree⟩ := huffBuild_total _ hvne
  rw [htree] at hok
  obtain ⟨s, hsmem, hf⟩ := trySeeds_mem _ seeds bs hok
  unfold attemptBucket at hf
  cases hsol : solveSystem tree.height (3 * segOf pairs.length)
      (pairs.map (rowFor hash s (segOf pairs.length) tree.height tree)) with
  | none => rw [hsol] at hf; cases hf
  | some sol =>
    rw [hsol] at hf
    simp only [Option.map_some'] at hf
    cases hf
    exact ⟨tree, sol, htree, rfl, hsol⟩

theorem flatten_length_const (L : Nat) :
    ∀ (x : List Bits), (∀ s ∈ x, s.length = L) →
      x.flatten.length = x.length * L := by
  intro x
  induction x with
  | nil => intro _; simp
  | cons s t ih =>
    intro h
    simp only [List.flatten_cons, List.length_append, List.length_cons]
    rw [ih (fun q hq => h q (List.mem_cons_of_mem s hq)),
      h s (List.mem_cons_self s t)]
    ring

theorem queryCSF_eval (hash : HashFn) (csf : CSFModel) (k : Key)
    (meta : BucketMeta) (tree : HTree)
    (hm : csf.metas[bucketOf csf.bucketBits (keyHash hash csf.masterSeed k)]?
      = some meta)
    (ht : meta.tree = some tree) :
    queryCSF hash csf k
      = (decodeWalk tree ((edgeVars meta.seg (keyHash hash meta.seed k)).foldl
          (fun acc w =>
            bxor acc (readBits csf.s (meta.offset + w * meta.L) meta.L))
          (zeroBits meta.L))).map (·.1) := by
  unfold queryCSF
  rw [hm]
  dsimp only
  rw [ht]

set_option maxHeartbeats 1000000 in
theorem buildCSF_query (hash : HashFn) (cfg : BuildConfig) (keys : List Key)
    (values : List Nat) (csf : CSFModel) (k : Key) (v : Nat)
    (hbits : cfg.bucketBits ≤ 128)
    (hok : buildCSF hash cfg keys values = .ok csf)
    (hkv : (k, v) ∈ keys.zip values) :
    queryCSF hash csf k = some v := by
  unfold buildCSF at hok
  cases hst : buildStore hash cfg keys with
  | error e => rw [hst] at hok; cases hok
  | ok hs =>
    rw [hst] at hok
    cases hsolved : exMap
        (fun bid => buildBucket hash cfg.attemptSeeds
          ((keys.zip values).filter (fun p => keyBucket hash cfg p.1 = bid)))
        (List.range (2 ^ cfg.bucketBits)) with
    | error e =>
      rw [hsolved, exceptBind_error] at hok
      cases hok
    | ok solved =>
      rw [hsolved, exceptBind_ok, exceptPure_eq_ok] at hok
      injection hok with hrec
      have hm : csf.metas = metasOf 0 solved :=
        (congrArg CSFModel.metas hrec).symm
      have hss : csf.s = globalS solved := (congrArg CSFModel.s hrec).symm
      have hms : csf.masterSeed = cfg.masterSeed :=
        (congrArg CSFModel.masterSeed hrec).symm
      have hbb : csf.bucketBits = cfg.bucketBits :=
        (congrArg CSFModel.bucketBits hrec).symm
      have hh : keyHash hash cfg.masterSeed k < p128 :=
        Nat.mod_lt _ (by unfold p128; positivity)
      have hbid_lt : bucketOf cfg.bucketBits (keyHash hash cfg.masterSeed k)
          < 2 ^ cfg.bucketBits := by
        unfold bucketOf
        apply Nat.div_lt_of_lt_mul
        calc keyHash hash cfg.masterSeed k < p128 := hh
          _ = 2 ^ (128 - cfg.bucketBits) * 2 ^ cfg.bucketBits := by
              unfold p128; rw [← pow_add]; congr 1; omega
      obtain ⟨hlen, hget⟩ := exMap_get _ _ _ hsolved
      obtain ⟨bs, hbs, hbuild⟩ := hget
        (bucketOf cfg.bucketBits (keyHash hash cfg.masterSeed k))
        (bucketOf cfg.bucketBits (keyHash hash cfg.masterSeed k))
        (List.getElem?_range hbid_lt)
      set B := bucketOf cfg.bucketBits (keyHash hash cfg.masterSeed k) with hB
      set pb := (keys.zip values).filter
        (fun p => keyBucket hash cfg p.1 = B) with hpb
      have hkv_mem : (k, v) ∈ pb := by
        rw [hpb]
        exact List.mem_filter.mpr ⟨hkv, by simp [keyBucket, hB]⟩
      have hne : pb ≠ [] := fun hc => by
        rw [hc] at hkv_mem
        exact List.not_mem_nil _ hkv_mem
      obtain ⟨tree, sol, htree, hbsshape, hsolve⟩ :=
        buildBucket_spec hash cfg.attemptSeeds pb bs hne hbuild
      set sg := segOf pb.length with hsg
      set L := tree.height with hLdef
      have hsg1 : 1 ≤ sg := by rw [hsg]; exact segOf_pos _
      have hvars : ∀ r ∈ pb.map (rowFor hash bs.seed sg L tree),
          ∀ w ∈ r.vars, w < 3 * sg := by
        intro r hr w hw
        obtain ⟨p, hp, rfl⟩ := List.mem_map.mp hr
        exact edgeVars_lt _ _ hsg1 w hw
      have hrhs : ∀ r ∈ pb.map (rowFor hash bs.seed sg L tree),
          r.rhs.length = L := by
        intro r hr
        obtain ⟨p, hp, rfl⟩ := List.mem_map.mp hr
        have hsym : p.2 ∈ tree.syms := by
          apply huffBuild_syms _ _ htree
          exact List.mem_map_of_mem (·.2) hp
        obtain ⟨c, hc⟩ := codeOf_isSome_of_mem tree p.2 hsym
        show (padTo L ((codeOf tree p.2).getD [])).length = L
        rw [hc]
        exact padTo_length _ _
          (by rw [hLdef]; exact codeOf_length tree p.2 c hc)
      obtain ⟨hrows, hxlen, hslices⟩ :=
        solveSystem_correct L (3 * sg) _ sol hsolve hvars hrhs
      have hmeta := metasOf_get solved 0 B bs hbs
      have hm2 : csf.metas[bucketOf csf.bucketBits
          (keyHash hash csf.masterSeed k)]?
          = some ⟨bs.seed, bs.seg, bs.L, 0 + prefixLen solved B, bs.tree⟩ := by
        rw [hm, hms, hbb, ← hB]
        exact hmeta
      have htr : bs.tree = some tree := by rw [hbsshape]
      rw [queryCSF_eval hash csf k _ tree hm2 htr]
      have hseg2 : bs.seg = sg := by rw [hbsshape]
      have hL2 : bs.L = L := by rw [hbsshape]
      have hsolq : bs.sol = sol := by rw [hbsshape]
      dsimp only
      rw [hss, hseg2, hL2, Nat.zero_add]
      have hflat : bs.sol.flatten.length = 3 * sg * L := by
        rw [hsolq, flatten_length_const L sol hslices, hxlen]
      have hword : (edgeVars sg (keyHash hash bs.seed k)).foldl
          (fun acc w => bxor acc (readBits (globalS solved)
            (prefixLen solved B + w * L) L)) (zeroBits L)
          = xorRow L sol (edgeVars sg (keyHash hash bs.seed k)) := by
        unfold xorRow
        apply List.foldl_ext
        intro acc w hw
        congr 1
        have hwlt : w < 3 * sg := edgeVars_lt _ _ hsg1 w hw
        have hle : w * L + L ≤ bs.sol.flatten.length := by
          rw [hflat]
          calc w * L + L = (w + 1) * L := by ring
            _ ≤ 3 * sg * L := Nat.mul_le_mul_right _ hwlt
        rw [globalS_read solved B bs hbs (w * L) L hle, hsolq,
          readBits_flatten_slice L sol w hslices (by rw [hxlen]; exact hwlt)]
      rw [hword]
      have hrowk := hrows _ (List.mem_map_of_mem
        (rowFor hash bs.seed sg L tree) hkv_mem)
      have hsymv : v ∈ tree.syms := by
        apply huffBuild_syms _ _ htree
        exact List.mem_map_of_mem (·.2) hkv_mem
      obtain ⟨c, hc⟩ := codeOf_isSome_of_mem tree v hsymv
      have hwx : xorRow L sol (edgeVars sg (keyHash hash bs.seed k))
          = c ++ List.replicate (L - c.length) false := by
        have h9 := hrowk
        unfold rowFor at h9
        dsimp only at h9
        rw [h9, hc]
        rfl
      rw [hwx, decodeWalk_codeOf tree v c hc _]
      rfl

/-! ## Core serialization roundtrip -/

theorem decBool_encBool (b : Bool) : decBool (encBool b) = some b := by
  cases b <;> rfl

theorem decListF_enc (s : Bits) :
    ∀ rest, decListF decBool s.length (s.map encBool ++ rest) = some (s, rest) := by
  induction s with
  | nil => intro rest; rfl
  | cons b t ih =>
    intro rest
    show decListF decBool (t.length + 1) (encBool b :: (t.map encBool ++ rest))
      = some (b :: t, rest)
    simp only [decListF, decBool_encBool, ih rest]
    rfl

theorem decBits_encBits (s : Bits) (rest : List Nat) :
    decBits (encBits s ++ rest) = some (s, rest) := by
  show decListF decBool s.length (s.map encBool ++ rest) = some (s, rest)
  exact decListF_enc s rest

theorem decTree_node_eq (f : Nat) (rest : List Nat) :
    decTree (f + 1) (1 :: rest)
      = (decTree f rest).bind (fun p => (decTree f p.2).bind
          (fun q => some (HTree.node p.1 q.1, q.2))) := rfl

theorem decTree_encTree (t : HTree) :
    ∀ fuel, treeSize t ≤ fuel → ∀ rest,
      decTree fuel (encTree t ++ rest) = some (t, rest) := by
  induction t with
  | leaf s =>
    intro fuel hf rest
    cases fuel with
    | zero => simp [treeSize] at hf
    | succ f => rfl
  | node l r ihl ihr =>
    intro fuel hf rest
    cases fuel with
    | zero => simp [treeSize] at hf
    | succ f =>
      have hl : treeSize l ≤ f := by simp [treeSize] at hf; omega
      have hr : treeSize r ≤ f := by simp [treeSize] at hf; omega
      show decTree (f + 1) (1 :: (encTree l ++ encTree r ++ rest))
        = some (.node l r, rest)
      rw [List.append_assoc, decTree_node_eq, ihl f hl _]
      show (decTree f (encTree r ++ rest)).bind
        (fun q => some (HTree.node l q.1, q.2)) = some (.node l r, rest)
      rw [ihr f hr rest]
      rfl

theorem encOptTree_size_le (ot : Option HTree) :
    optTreeSize ot ≤ (encOptTree ot).length := by
  cases ot with
  | none => simp [optTreeSize, encOptTree]
  | some t =>
    show treeSize t ≤ (1 :: encTree t).length
    have : treeSize t ≤ (encTree t).length := by
      induction t with
      | leaf s => simp [treeSize, encTree]
      | node l r ihl ihr =>
        simp only [treeSize, encTree, List.length_cons, List.length_append]
        omega
    simp only [List.length_cons]
    omega

theorem decOptTree_enc (ot : Option HTree) (fuel : Nat)
    (hf : optTreeSize ot ≤ fuel) (rest : List Nat) :
    decOptTree fuel (encOptTree ot ++ rest) = some (ot, rest) := by
  cases ot with
  | none => rfl
  | some t =>
    show (decTree fuel (encTree t ++ rest)).map (fun p => (some p.1, p.2))
      = some (some t, rest)
    rw [decTree_encTree t fuel hf rest]
    rfl

theorem decMeta_enc (m : BucketMeta) (fuel : Nat)
    (hf : optTreeSize m.tree ≤ fuel) (rest : List Nat) :
    decMeta fuel (encMeta m ++ rest) = some (m, rest) := by
  show (decOptTree fuel (encOptTree m.tree ++ rest)).map
    (fun p => (⟨m.seed, m.seg, m.L, m.offset, p.1⟩, p.2)) = some (m, rest)
  rw [decOptTree_enc m.tree fuel hf rest]
  rfl

theorem decMetas_succ_eq (fuel n : Nat) (rest : List Nat) :
    decMetas fuel (n + 1) rest
      = (decMeta fuel rest).bind (fun p => (decMetas fuel n p.2).bind
          (fun q => some (p.1 :: q.1, q.2))) := rfl

theorem decMetas_enc (fuel : Nat) :
    ∀ (ms : List BucketMeta), (∀ m ∈ ms, optTreeSize m.tree ≤ fuel) →
      ∀ rest, decMetas fuel ms.length ((ms.map encMeta).flatten ++ rest)
        = some (ms, rest) := by
  intro ms
  induction ms with
  | nil => intro _ rest; rfl
  | cons m t ih =>
    intro hall rest
    rw [List.map_cons, List.flatten_cons, List.append_assoc]
    show decMetas fuel (t.length + 1)
      (encMeta m ++ ((t.map encMeta).flatten ++ rest)) = some (m :: t, rest)
    rw [decMetas_succ_eq,
      decMeta_enc m fuel (hall m (List.mem_cons_self m t)) _]
    show (decMetas fuel t.length ((t.map encMeta).flatten ++ rest)).bind
      (fun q => some (m :: q.1, q.2)) = some (m :: t, rest)
    rw [ih (fun q hq => hall q (List.mem_cons_of_mem m hq)) rest]
    rfl

theorem length_le_flatten {l : List Nat} {L : List (List Nat)} (h : l ∈ L) :
    l.length ≤ L.flatten.length := by
  rw [List.length_flatten]
  exact List.le_sum_of_mem (List.mem_map_of_mem List.length h)

theorem loadCSF_cons_eq (magic ver tag seed bits count : Nat)
    (rest : List Nat) :
    loadCSF (magic :: ver :: tag :: seed :: bits :: count :: rest)
      = if magic = MAGIC ∧ ver = VERSION ∧ tag = TYPETAG then
          (decMetas rest.length count rest).bind (fun p =>
            (decBits p.2).bind (fun q =>
              match q.2 with
              | [0, 0] => some ⟨seed, bits, p.1, q.1⟩
              | _ => none))
        else none := rfl

theorem loadCSF_saveCSF (csf : CSFModel) : loadCSF (saveCSF csf) = some csf := by
  have hsave : saveCSF csf
      = MAGIC :: VERSION :: TYPETAG :: csf.masterSeed :: csf.bucketBits ::
        csf.metas.length ::
        ((csf.metas.map encMeta).flatten ++ (encBits csf.s ++ [0, 0])) := by
    unfold saveCSF
    simp [List.append_assoc]
  rw [hsave, loadCSF_cons_eq, if_pos (⟨rfl, rfl, rfl⟩ :
    MAGIC = MAGIC ∧ VERSION = VERSION ∧ TYPETAG = TYPETAG)]
  have hfuel : ∀ m ∈ csf.metas, optTreeSize m.tree ≤
      ((csf.metas.map encMeta).flatten ++ (encBits csf.s ++ [0, 0])).length := by
    intro m hm
    have h1 : optTreeSize m.tree ≤ (encOptTree m.tree).length :=
      encOptTree_size_le _
    have h2 : (encMeta m).length = (encOptTree m.tree).length + 4 := by
      simp [encMeta]
    have h3 : (encMeta m).length ≤ ((csf.metas.map encMeta).flatten).length :=
      length_le_flatten (List.mem_map_of_mem encMeta hm)
    rw [List.length_append]
    omega
  rw [decMetas_enc _ csf.metas hfuel _]
  show (decBits (encBits csf.s ++ [0, 0])).bind (fun q =>
      match q.2 with
      | [0, 0] => some ⟨csf.masterSeed, csf.bucketBits, csf.metas, q.1⟩
      | _ => none) = some csf
  rw [decBits_encBits]
  rfl

/-! ## C2: hash-collision detection -/

theorem hasDup_of_get (a : Nat) :
    ∀ (l : List Nat) (i j : Nat), i < j → l[i]? = some a → l[j]? = some a →
      hasDup l = true := by
  intro l
  induction l with
  | nil => intro i j _ hi _; simp at hi
  | cons x t ih =>
    intro i j hij hi hj
    cases i with
    | zero =>
      simp only [List.getElem?_cons_zero, Option.some.injEq] at hi
      subst hi
      cases j with
      | zero => omega
      | succ j2 =>
        simp only [List.getElem?_cons_succ] at hj
        have hmem : x ∈ t := List.getElem?_mem hj
        unfold hasDup
        simp [hmem]
    | succ i2 =>
      cases j with
      | zero => omega
      | succ j2 =>
        simp only [List.getElem?_cons_succ] at hi hj
        have hrec := ih i2 j2 (by omega) hi hj
        unfold hasDup
        simp [hrec]

/-- C2: an input with two positions whose keys have identical 128-bit hash
(in particular two equal keys) makes construction fail with `KeyCollision`:
the bucketed store aborts before any bucket is solved, and the whole build
returns the error, so no CSF object is produced. -/
theorem collision_detected (hash : HashFn) (cfg : BuildConfig)
    (keys : List Key) (values : List Nat) (k1 k2 : Key) (i j : Nat)
    (hij : i < j) (hi : keys[i]? = some k1) (hj : keys[j]? = some k2)
    (hcol : keyHash hash cfg.masterSeed k1 = keyHash hash cfg.masterSeed k2) :
    buildStore hash cfg keys = .error .keyCollision ∧
    buildCSF hash cfg keys values = .error .keyCollision := by
  have hd : hasDup (keys.map (keyHash hash cfg.masterSeed)) = true := by
    apply hasDup_of_get (keyHash hash cfg.masterSeed k2) _ i j hij
    · rw [List.getElem?_map, hi]
      simp [hcol]
    · rw [List.getElem?_map, hj]
      simp
  have hstore : buildStore hash cfg keys = .error .keyCollision := by
    unfold buildStore
    simp [hd]
  refine ⟨hstore, ?_⟩
  unfold buildCSF
  rw [hstore]

/-- C1: for a construction accepted by the builder, every input pair
`(k, v)` survives the full pipeline: saving the built CSF, loading the
saved bytes back, and querying `k` on the loaded CSF returns exactly `v`. -/
theorem build_save_load_query (hash : HashFn) (cfg : BuildConfig)
    (keys : List Key) (values : List Nat) (csf : CSFModel) (k : Key) (v : Nat)
    (hbits : cfg.bucketBits ≤ 128)
    (hok : buildCSF hash cfg keys values = .ok csf)
    (hkv : (k, v) ∈ keys.zip values) :
    ∃ loaded, loadCSF (saveCSF csf) = some loaded
      ∧ queryCSF hash loaded k = some v :=
  ⟨csf, loadCSF_saveCSF csf,
    buildCSF_query hash cfg keys values csf k v hbits hok hkv⟩

/-! ## C3: prefilter no-false-negative lemmas -/

theorem getD_set_true (b : Bits) (p q : Nat) (h : b.getD p false = true) :
    (b.set q true).getD p false = true := by
  rw [List.getD_eq_getElem?_getD] at h ⊢
  by_cases hpq : q = p
  · subst hpq
    by_cases hlt : q < b.length
    · rw [List.getElem?_set_self hlt]
      rfl
    · rw [List.getElem?_eq_none (by omega)] at h
      simp at h
  · rw [List.getElem?_set_ne hpq]
    exact h

theorem getD_set_self_true (b : Bits) (p : Nat) (hp : p < b.length) :
    (b.set p true).getD p false = true := by
  rw [List.getD_eq_getElem?_getD, List.getElem?_set_self hp]
  rfl

theorem bloomInsert_length (b : Bits) :
    ∀ ps, (bloomInsert b ps).length = b.length := by
  intro ps
  induction ps generalizing b with
  | nil => rfl
  | cons q t ih =>
    show (bloomInsert (b.set q true) t).length = b.length
    rw [ih (b.set q true), List.length_set]

theorem bloomInsert_mono (b : Bits) (p : Nat) :
    ∀ ps, b.getD p false = true → (bloomInsert b ps).getD p false = true := by
  intro ps
  induction ps generalizing b with
  | nil => intro h; exact h
  | cons q t ih =>
    intro h
    show (bloomInsert (b.set q true) t).getD p false = true
    exact ih (b.set q true) (getD_set_true b p q h)

theorem bloomInsert_sets (p : Nat) :
    ∀ (ps : List Nat) (b : Bits), p < b.length → p ∈ ps →
      (bloomInsert b ps).getD p false = true := by
  intro ps
  induction ps with
  | nil => intro b _ hmem; cases hmem
  | cons q t ih =>
    intro b hp hmem
    show (bloomInsert (b.set q true) t).getD p false = true
    rcases List.mem_cons.mp hmem with rfl | hmem2
    · exact bloomInsert_mono (b.set p true) p t (getD_set_self_true b p hp)
    · exact ih (b.set q true) (by rw [List.length_set]; exact hp) hmem2

theorem bloom_fold_length (hash : HashFn) (size nh seed : Nat) :
    ∀ (keys : List Key) (b : Bits),
      (keys.foldl (fun b2 k2 =>
        bloomInsert b2 (bloomPositions hash size nh seed k2)) b).length
      = b.length := by
  intro keys
  induction keys with
  | nil => intro b; rfl
  | cons k0 t ih =>
    intro b
    show (t.foldl _ (bloomInsert b (bloomPositions hash size nh seed k0))).length
      = b.length
    rw [ih, bloomInsert_length]

theorem bloom_fold_mono (hash : HashFn) (size nh seed : Nat) (p : Nat) :
    ∀ (keys : List Key) (b : Bits), b.getD p false = true →
      (keys.foldl (fun b2 k2 =>
        bloomInsert b2 (bloomPositions hash size nh seed k2)) b).getD p false
      = true := by
  intro keys
  induction keys with
  | nil => intro b h; exact h
  | cons k0 t ih =>
    intro b h
    exact ih (bloomInsert b (bloomPositions hash size nh seed k0))
      (bloomInsert_mono b p _ h)

theorem bloom_fold_sets (hash : HashFn) (size nh seed : Nat) (k : Key)
    (p : Nat) (hpos : p ∈ bloomPositions hash size nh seed k) :
    ∀ (keys : List Key) (b : Bits), p < b.length → k ∈ keys →
      (keys.foldl (fun b2 k2 =>
        bloomInsert b2 (bloomPositions hash size nh seed k2)) b).getD p false
      = true := by
  intro keys
  induction keys with
  | nil => intro b _ hmem; cases hmem
  | cons k0 t ih =>
    intro b hp hmem
    rcases List.mem_cons.mp hmem with rfl | hmem2
    · exact bloom_fold_mono hash size nh seed p t _
        (bloomInsert_sets p _ b hp hpos)
    · exact ih (bloomInsert b (bloomPositions hash size nh seed k0))
        (by rw [bloomInsert_length]; exact hp) hmem2

theorem bloomPositions_lt (hash : HashFn) (size nh seed : Nat) (k : Key)
    (hsize : 0 < size) : ∀ p ∈ bloomPositions hash size nh seed k, p < size := by
  intro p hp
  unfold bloomPositions at hp
  obtain ⟨i, _, rfl⟩ := List.mem_map.mp hp
  exact Nat.mod_lt _ hsize

theorem bloomBuild_noFN (hash : HashFn) (size nh seed : Nat) (keys : List Key)
    (bd : BloomData) (hok : bloomBuild hash size nh seed keys = .ok bd) :
    ∀ k ∈ keys, bloomContains hash bd k = true := by
  intro k hk
  unfold bloomBuild at hok
  by_cases hsz : size = 0
  · rw [if_pos hsz] at hok; cases hok
  · rw [if_neg hsz] at hok
    injection hok with hok
    subst hok
    unfold bloomContains
    apply List.all_eq_true.mpr
    intro p hp
    apply bloom_fold_sets hash size nh seed k p hp keys (zeroBits size)
      _ hk
    show p < (zeroBits size).length
    rw [zeroBits, List.length_replicate]
    exact bloomPositions_lt hash size nh seed k (by omega) p hp

theorem fingerAttempt_noFN (hash : HashFn) (arity4 : Bool) (seg fpBits : Nat)
    (hseg : 1 ≤ seg) (keys : List Key) (s : Nat) (fd : FingerData)
    (hf : fingerAttempt hash arity4 seg fpBits keys s = some fd) :
    ∀ k ∈ keys, fingerContains hash fd k = true := by
  unfold fingerAttempt at hf
  cases hsol : solveSystem fpBits ((if arity4 then 4 else 3) * seg)
      (keys.map (fingerRow hash arity4 s seg fpBits)) with
  | none => rw [hsol] at hf; cases hf
  | some sol =>
    rw [hsol] at hf
    simp only [Option.map_some', Option.some.injEq] at hf
    subst hf
    have hvars : ∀ r ∈ keys.map (fingerRow hash arity4 s seg fpBits),
        ∀ w ∈ r.vars, w < (if arity4 then 4 else 3) * seg := by
      intro r hr w hw
      obtain ⟨k2, hk2, rfl⟩ := List.mem_map.mp hr
      cases arity4 with
      | true => exact edgeVars4_lt _ _ hseg w hw
      | false => exact edgeVars_lt _ _ hseg w hw
    have hrhs : ∀ r ∈ keys.map (fingerRow hash arity4 s seg fpBits),
        r.rhs.length = fpBits := by
      intro r hr
      obtain ⟨k2, hk2, rfl⟩ := List.mem_map.mp hr
      show (fpOf hash s fpBits k2).length = fpBits
      unfold fpOf
      exact natToBits_length _ _
    obtain ⟨hrows, _, _⟩ :=
      solveSystem_correct fpBits _ _ sol hsol hvars hrhs
    intro k hk
    have hr := hrows _
      (List.mem_map_of_mem (fingerRow hash arity4 s seg fpBits) hk)
    unfold fingerContains
    dsimp only
    unfold fingerRow at hr
    dsimp only at hr
    rw [hr]
    exact beq_self_eq_true _

theorem fingerBuild_noFN (hash : HashFn) (seeds : List Nat) (arity4 : Bool)
    (fpBits : Nat) (keys : List Key) (fd : FingerData)
    (hok : fingerBuild hash seeds arity4 fpBits keys = .ok fd) :
    ∀ k ∈ keys, fingerContains hash fd k = true := by
  unfold fingerBuild at hok
  obtain ⟨s, _, hf⟩ := trySeeds_mem _ seeds fd hok
  apply fingerAttempt_noFN hash arity4 _ fpBits ?_ keys s fd hf
  cases arity4 with
  | true => exact segFuse_pos _
  | false => exact segXor_pos _

theorem amqBuild_noFN (hash : HashFn) (seeds : List Nat) (fseed : Nat)
    (fcfg : FilterCfg) (keys : List Key) (a : AMQ)
    (hok : amqBuild hash seeds fseed fcfg keys = .ok a) :
    ∀ k ∈ keys, amqContains hash a k = true := by
  intro k hk
  unfold amqBuild at hok
  cases fcfg with
  | bloom size nh =>
    dsimp only at hok
    cases hb : bloomBuild hash size nh fseed keys with
    | error e => rw [hb] at hok; cases hok
    | ok bd =>
      rw [hb] at hok
      injection hok with hok
      subst hok
      exact bloomBuild_noFN hash size nh fseed keys bd hb k hk
  | xorFp fpBits =>
    dsimp only at hok
    cases hb : fingerBuild hash (seeds.map (· + fseed)) false fpBits keys with
    | error e => rw [hb] at hok; cases hok
    | ok fd =>
      rw [hb] at hok
      injection hok with hok
      subst hok
      exact fingerBuild_noFN hash _ false fpBits keys fd hb k hk
  | binaryFuse fpBits =>
    dsimp only at hok
    cases hb : fingerBuild hash (seeds.map (· + fseed)) true fpBits keys with
    | error e => rw [hb] at hok; cases hok
    | ok fd =>
      rw [hb] at hok
      injection hok with hok
      subst hok
      exact fingerBuild_noFN hash _ true fpBits keys fd hb k hk

set_option maxHeartbeats 1000000 in
/-- C3: on a CSF built with any of the three prefilter configurations
(Bloom, XOR, binary fuse), every input pair `(k, v)` queries to exactly `v`:
every minority key is reported positive by the built filter, so the filter
false-positive rate never produces a wrong answer for a key in the input
set. -/
theorem filtered_query_correct (hash : HashFn) (cfg : BuildConfig)
    (fseed : Nat) (fcfg : FilterCfg) (keys : List Key) (values : List Nat)
    (f : FilteredCSF) (k : Key) (v : Nat)
    (hbits : cfg.bucketBits ≤ 128)
    (hok : buildFilteredCSF hash cfg fseed fcfg keys values = .ok f)
    (hkv : (k, v) ∈ keys.zip values) :
    queryFiltered hash f k = some v ∧
      (v ≠ f.majority → amqContains hash f.amq k = true) := by
  unfold buildFilteredCSF at hok
  cases hst : buildStore hash cfg keys with
  | error e => rw [hst] at hok; cases hok
  | ok hs =>
    rw [hst] at hok
    dsimp only at hok
    cases hamq : amqBuild hash cfg.attemptSeeds fseed fcfg
        (((keys.zip values).filter (fun p => p.2 ≠ mostCommon values)).map
          (·.1)) with
    | error e =>
      rw [hamq, exceptBind_error] at hok
      cases hok
    | ok amq =>
      rw [hamq, exceptBind_ok] at hok
      cases hcsf : buildCSF hash cfg
          (((keys.zip values).filter
            (fun p => amqContains hash amq p.1)).map (·.1))
          (((keys.zip values).filter
            (fun p => amqContains hash amq p.1)).map (·.2)) with
      | error e =>
        rw [hcsf, exceptBind_error] at hok
        cases hok
      | ok csf =>
        rw [hcsf, exceptBind_ok, exceptPure_eq_ok] at hok
        injection hok with hrec
        have hamqf : f.amq = amq := (congrArg FilteredCSF.amq hrec).symm
        have hmajf : f.majority = mostCommon values :=
          (congrArg FilteredCSF.majority hrec).symm
        have hcsff : f.csf = csf := (congrArg FilteredCSF.csf hrec).symm
        have hnofn := amqBuild_noFN hash cfg.attemptSeeds fseed fcfg _ amq hamq
        have hmin : v ≠ mostCommon values → amqContains hash amq k = true := by
          intro hv
          have hmemf : ((k, v) : Key × Nat) ∈ (keys.zip values).filter
              (fun p => p.2 ≠ mostCommon values) :=
            List.mem_filter.mpr ⟨hkv, by simp [hv]⟩
          exact hnofn _ (List.mem_map_of_mem (fun x => x.1) hmemf)
        constructor
        · unfold queryFiltered
          rw [hamqf, hcsff, hmajf]
          by_cases hc : amqContains hash amq k = true
          · rw [if_pos hc]
            apply buildCSF_query hash cfg _ _ csf k v hbits hcsf
            have hzip : ((((keys.zip values).filter
                  (fun p => amqContains hash amq p.1)).map (·.1)).zip
                (((keys.zip values).filter
                  (fun p => amqContains hash amq p.1)).map (·.2)))
                = (keys.zip values).filter
                  (fun p => amqContains hash amq p.1) :=
              (List.zip_of_prod rfl rfl).symm
            rw [hzip]
            exact List.mem_filter.mpr ⟨hkv, by simp [hc]⟩
          · rw [if_neg hc]
            have hveq : v = mostCommon values := by
              by_contra hv
              exact hc (hmin hv)
            rw [hveq]
        · intro hv
          rw [hamqf]
          apply hmin
          rw [hmajf] at hv
          exact hv

/-- Witness for C1: at the two-key fixture, the pair `([1], 7)` survives
build, save, load and query. -/
theorem build_save_load_query_witness :
    ∃ loaded, loadCSF (saveCSF csfW) = some loaded
      ∧ queryCSF hashW loaded [1] = some 7 :=
  build_save_load_query hashW cfgW keysW valsW csfW [1] 7 (by decide)
    (by decide) (by decide)

/-- Witness for C2: the duplicate-key fixture aborts with `KeyCollision`. -/
theorem collision_detected_witness :
    buildStore hashC2 cfgW keysC2 = .error .keyCollision ∧
    buildCSF hashC2 cfgW keysC2 valsC2 = .error .keyCollision :=
  collision_detected hashC2 cfgW keysC2 valsC2 [52] [52] 3 4 (by decide)
    (by decide) (by decide) (by decide)

/-- Witness for C3: at the Bloom-filtered fixture, the minority pair
`([3], 9)` queries correctly and its key is filter-positive. -/
theorem filtered_query_correct_witness :
    queryFiltered hashF fcsfW [3] = some 9 ∧
      (9 ≠ fcsfW.majority → amqContains hashF fcsfW.amq [3] = true) :=
  filtered_query_correct hashF cfgF 0 fcfgF keysF valsF fcsfW [3] 9
    (by decide) (by decide) (by decide)

end Caramel
